import Mathlib

/-!
Verification of the keai-rag repository: a shallow embedding of the
document-chunking algorithm (`src/processors/base.py`), the retrieval and
generation services (`src/services/retrieval_service.py`,
`src/services/generation_service.py`), the local FAISS-backed vector store
(`src/core/faiss_store.py`), the vector-store manager
(`src/core/vector_store_manager.py`) and the exception taxonomy
(`src/utils/exceptions.py`), together with theorems about the claims of the
specification.

Python strings are modelled as `List Char`, Python ints as `Int`/`Nat`,
float scores as `ℚ`, dictionaries as association lists with
first-match lookup and in-place update, and fallible loops are given
explicit fuel (returning `none` when the fuel runs out, so that
non-termination of the source loop is expressible).
-/

/-! ## Python string primitives -/

/-- Python `str.strip()` whitespace test (the six ASCII whitespace chars). -/
def pyIsSpace (c : Char) : Bool :=
  c = ' ' || c = '\t' || c = '\n' || c = '\r' || c = '\x0b' || c = '\x0c'

/-- Python `str.strip()`: remove leading and trailing whitespace. -/
def pyStrip (l : List Char) : List Char :=
  ((l.dropWhile pyIsSpace).reverse.dropWhile pyIsSpace).reverse

/-- Normalise a Python slice index: negative indices count from the end
(clamped at 0), positive indices are clamped at the length. -/
def pyIdx (n : Nat) (i : Int) : Nat :=
  if i < 0 then (i + n).toNat else min i.toNat n

/-- Python slice `l[a:b]`. -/
def pySlice (l : List Char) (a b : Int) : List Char :=
  (l.take (pyIdx l.length b)).drop (pyIdx l.length a)

/-- Python `text.rfind(sub, a, b)`: the greatest position `p` with
`a' ≤ p`, `p + len(sub) ≤ b'` (after slice-index normalisation) at which
`sub` occurs in `text`, or `none`. -/
def rfindSub (l sub : List Char) (a b : Int) : Option Nat :=
  let lo := pyIdx l.length a
  let hi := pyIdx l.length b
  ((List.range (hi + 1)).filter
    (fun p => decide (lo ≤ p) && decide (p + sub.length ≤ hi)
      && sub.isPrefixOf (l.drop p))).getLast?

/-! ## The chunking algorithm `BaseDocumentProcessor.split_text`
(`src/processors/base.py`, lines 117-160) -/

/-- The boundary markers searched for, in priority order:
`['\n\n', '\n', '。', '！', '？', '.', '!', '?']`. -/
def splitChars : List (List Char) :=
  [['\n', '\n'], ['\n'], ['。'], ['！'], ['？'], ['.'], ['!'], ['?']]

/-- The `for char in split_chars` search: the first marker kind (in priority
order) found by `rfind` within `[start, end)` determines the cut
`pos + len(char)`; if none is found the cut stays at `e0`. -/
def findBestSplit (l : List Char) (a e0 : Int) : List (List Char) → Int
  | [] => e0
  | c :: rest =>
    match rfindSub l c a e0 with
    | some pos => ((pos + c.length : Nat) : Int)
    | none => findBestSplit l a e0 rest

/-- The `end` computed in one iteration of the `split_text` loop: the raw cut
is `start + chunk_size`; if it falls before the end of the text, the
boundary search adjusts it. -/
def splitIterEnd (chunk_size : Nat) (l : List Char) (start : Int) : Int :=
  if start + (chunk_size : Int) < (l.length : Int) then
    findBestSplit l start (start + (chunk_size : Int)) splitChars
  else start + (chunk_size : Int)

/-- The `while start < text_length` loop of `split_text`, with fuel.  Each
iteration records `(start, end, stripped chunk)`; the next start is
`end - chunk_overlap` when `end < text_length`, else the text length.
Returns `none` when the fuel is exhausted (the source loop does not
terminate within that many iterations). -/
def splitLoop (chunk_size chunk_overlap : Nat) (l : List Char) :
    Nat → Int → List (Int × Int × List Char) → Option (List (Int × Int × List Char))
  | 0, _, _ => none
  | fuel + 1, start, acc =>
    if start < (l.length : Int) then
      let e := splitIterEnd chunk_size l start
      let chunk := pyStrip (pySlice l start e)
      splitLoop chunk_size chunk_overlap l fuel
        (if e < (l.length : Int) then e - chunk_overlap else (l.length : Int))
        ((start, e, chunk) :: acc)
    else some acc.reverse

/-- `split_text`: empty/whitespace-only input yields `[]`; otherwise run the
loop from offset 0, keeping the non-empty stripped chunks. -/
def split_text (fuel chunk_size chunk_overlap : Nat) (l : List Char) :
    Option (List (List Char)) :=
  if (pyStrip l).isEmpty then some []
  else
    (splitLoop chunk_size chunk_overlap l fuel 0 []).map
      (fun tr => tr.filterMap (fun t => if t.2.2.isEmpty then none else some t.2.2))

/-- If one iteration of the loop maps `start` back to itself (the boundary
cut lands exactly `chunk_overlap` ahead of `start`), the loop never
terminates, whatever the fuel. -/
theorem splitLoop_fixpoint (chunk_size chunk_overlap : Nat) (l : List Char) (s : Int)
    (hs : s < (l.length : Int))
    (he : splitIterEnd chunk_size l s < (l.length : Int))
    (hfix : splitIterEnd chunk_size l s - chunk_overlap = s) :
    ∀ (fuel : Nat) (acc : List (Int × Int × List Char)),
      splitLoop chunk_size chunk_overlap l fuel s acc = none := by
  intro fuel
  induction fuel with
  | zero => intro acc; rfl
  | succ n ih =>
    intro acc
    show (if s < (l.length : Int) then _ else _) = none
    rw [if_pos hs]
    simp only [if_pos he, hfix]
    exact ih _

/-- C1: for the valid parameters `chunk_size = 5`, `chunk_overlap = 2` and the
input `"a.bcdefgh"`, the `split_text` loop never terminates: the boundary
search cuts at position 2 (just after the `'.'`), and the next window start
`end - chunk_overlap = 0` equals the current one, so the loop revisits the
same state forever and no finite fuel suffices. -/
theorem split_text_diverges_on_early_boundary :
    ∀ fuel : Nat, split_text fuel 5 2 "a.bcdefgh".toList = none := by
  intro fuel
  show (if (pyStrip "a.bcdefgh".toList).isEmpty then _ else _) = none
  rw [if_neg (by decide)]
  rw [splitLoop_fixpoint 5 2 "a.bcdefgh".toList 0 (by decide) (by decide) (by decide)]
  rfl

/-! ## Bounds on the pieces of `split_text` -/

theorem pyIdx_le_length (n : Nat) (i : Int) : pyIdx n i ≤ n := by
  unfold pyIdx
  split
  · omega
  · omega

theorem pyIdx_le_toNat {n : Nat} {i : Int} (h0 : 0 ≤ i) : pyIdx n i ≤ i.toNat := by
  unfold pyIdx
  split
  · omega
  · omega

theorem pyIdx_of_nonneg_lt {n : Nat} {i : Int} (h0 : 0 ≤ i) (h : i < (n : Int)) :
    pyIdx n i = i.toNat := by
  unfold pyIdx
  split
  · omega
  · omega

theorem pySlice_length (l : List Char) (a b : Int) :
    (pySlice l a b).length = pyIdx l.length b - pyIdx l.length a := by
  unfold pySlice
  rw [List.length_drop, List.length_take]
  have := pyIdx_le_length l.length b
  omega

theorem pyStrip_length_le (l : List Char) : (pyStrip l).length ≤ l.length := by
  unfold pyStrip
  rw [List.length_reverse]
  calc ((l.dropWhile pyIsSpace).reverse.dropWhile pyIsSpace).length
      ≤ (l.dropWhile pyIsSpace).reverse.length := (List.dropWhile_sublist _).length_le
    _ = (l.dropWhile pyIsSpace).length := List.length_reverse _
    _ ≤ l.length := (List.dropWhile_sublist _).length_le

theorem rfindSub_bounds {l sub : List Char} {a b : Int} {p : Nat}
    (h : rfindSub l sub a b = some p) :
    pyIdx l.length a ≤ p ∧ p + sub.length ≤ pyIdx l.length b := by
  unfold rfindSub at h
  have hmem : p ∈ (List.range (pyIdx l.length b + 1)).filter
      (fun q => decide (pyIdx l.length a ≤ q) && decide (q + sub.length ≤ pyIdx l.length b)
        && sub.isPrefixOf (l.drop q)) := by
    exact List.mem_of_mem_getLast? h
  have hp := (List.mem_filter.mp hmem).2
  simp only [Bool.and_eq_true, decide_eq_true_eq] at hp
  exact ⟨hp.1.1, hp.1.2⟩

theorem findBestSplit_cases (l : List Char) (a e0 : Int) (cl : List (List Char)) :
    findBestSplit l a e0 cl = e0 ∨
    ∃ c ∈ cl, ∃ pos : Nat, rfindSub l c a e0 = some pos ∧
      findBestSplit l a e0 cl = ((pos + c.length : Nat) : Int) := by
  induction cl with
  | nil => exact Or.inl rfl
  | cons c rest ih =>
    cases h : rfindSub l c a e0 with
    | none =>
      have hstep : findBestSplit l a e0 (c :: rest) = findBestSplit l a e0 rest := by
        show (match rfindSub l c a e0 with
          | some pos => ((pos + c.length : Nat) : Int)
          | none => findBestSplit l a e0 rest) = _
        rw [h]
      rw [hstep]
      rcases ih with h1 | ⟨c', hc', pos, hpos, heq⟩
      · exact Or.inl h1
      · exact Or.inr ⟨c', List.mem_cons_of_mem _ hc', pos, hpos, heq⟩
    | some pos =>
      have hstep : findBestSplit l a e0 (c :: rest) = ((pos + c.length : Nat) : Int) := by
        show (match rfindSub l c a e0 with
          | some pos => ((pos + c.length : Nat) : Int)
          | none => findBestSplit l a e0 rest) = _
        rw [h]
      exact Or.inr ⟨c, List.mem_cons_self _ _, pos, h, hstep⟩

theorem splitIterEnd_nonneg (cs co : Nat) (l : List Char) (s : Int)
    (hs : -(co : Int) ≤ s) (hco : co < cs) : 0 ≤ splitIterEnd cs l s := by
  unfold splitIterEnd
  split
  · rcases findBestSplit_cases l s (s + cs) splitChars with h | ⟨c, _, pos, _, h⟩
    · rw [h]; omega
    · rw [h]; positivity
  · omega

theorem splitIterEnd_le (cs co : Nat) (l : List Char) (s : Int)
    (hs : -(co : Int) ≤ s) (hco : co < cs) : splitIterEnd cs l s ≤ s + cs := by
  unfold splitIterEnd
  split
  · rcases findBestSplit_cases l s (s + cs) splitChars with h | ⟨c, _, pos, hpos, h⟩
    · rw [h]
    · rw [h]
      have hb := (rfindSub_bounds hpos).2
      have hle : pyIdx l.length (s + cs) ≤ (s + cs).toNat := pyIdx_le_toNat (by omega)
      omega
  · omega

theorem splitIter_chunk_le (cs co : Nat) (l : List Char) (s : Int)
    (hs : -(co : Int) ≤ s) (hslt : s < (l.length : Int)) (hco : co < cs) :
    (pyStrip (pySlice l s (splitIterEnd cs l s))).length ≤ cs := by
  have hnn := splitIterEnd_nonneg cs co l s hs hco
  have hle := splitIterEnd_le cs co l s hs hco
  have h1 := pyStrip_length_le (pySlice l s (splitIterEnd cs l s))
  rw [pySlice_length] at h1
  have h2 : pyIdx l.length (splitIterEnd cs l s) ≤ (splitIterEnd cs l s).toNat :=
    pyIdx_le_toNat hnn
  rcases le_or_lt 0 s with hpos | hneg
  · have h3 : pyIdx l.length s = s.toNat := pyIdx_of_nonneg_lt hpos hslt
    omega
  · omega

/-! ## Traces of the `split_text` loop -/

/-- `ChainRun s tr`: `tr` is exactly the sequence of `(start, end, chunk)`
records of a complete (terminating) run of the `split_text` loop from
window start `s`. -/
inductive ChainRun (cs co : Nat) (l : List Char) : Int → List (Int × Int × List Char) → Prop
  | nil {s : Int} (h : ¬ s < (l.length : Int)) : ChainRun cs co l s []
  | cons {s : Int} {rest : List (Int × Int × List Char)} (h : s < (l.length : Int))
      (hrest : ChainRun cs co l
        (if splitIterEnd cs l s < (l.length : Int) then splitIterEnd cs l s - co
         else (l.length : Int)) rest) :
      ChainRun cs co l s
        ((s, splitIterEnd cs l s, pyStrip (pySlice l s (splitIterEnd cs l s))) :: rest)

theorem splitLoop_chainRun (cs co : Nat) (l : List Char) :
    ∀ (fuel : Nat) (s : Int) (acc tr : List (Int × Int × List Char)),
      splitLoop cs co l fuel s acc = some tr →
      ∃ rest, tr = acc.reverse ++ rest ∧ ChainRun cs co l s rest := by
  intro fuel
  induction fuel with
  | zero => intro s acc tr h; exact absurd h (by simp [splitLoop])
  | succ n ih =>
    intro s acc tr h
    by_cases hs : s < (l.length : Int)
    · rw [show splitLoop cs co l (n + 1) s acc =
          splitLoop cs co l n
            (if splitIterEnd cs l s < (l.length : Int) then splitIterEnd cs l s - co
             else (l.length : Int))
            ((s, splitIterEnd cs l s, pyStrip (pySlice l s (splitIterEnd cs l s))) :: acc)
        from by simp [splitLoop, hs]] at h
      obtain ⟨rest, htr, hchain⟩ := ih _ _ _ h
      refine ⟨(s, splitIterEnd cs l s, pyStrip (pySlice l s (splitIterEnd cs l s))) :: rest,
        ?_, ChainRun.cons hs hchain⟩
      rw [htr]
      simp
    · rw [show splitLoop cs co l (n + 1) s acc = some acc.reverse
        from by simp [splitLoop, hs]] at h
      obtain rfl : acc.reverse = tr := by injection h
      exact ⟨[], by simp, ChainRun.nil hs⟩

theorem chainRun_chunk_le (cs co : Nat) (l : List Char) (hco : co < cs) :
    ∀ {s : Int} {tr : List (Int × Int × List Char)}, ChainRun cs co l s tr →
      -(co : Int) ≤ s → ∀ t ∈ tr, t.2.2.length ≤ cs := by
  intro s tr h
  induction h with
  | nil _ => intro _ t ht; exact absurd ht (List.not_mem_nil t)
  | @cons s rest hs hrest ih =>
    intro hlb t ht
    rcases List.mem_cons.mp ht with rfl | ht'
    · exact splitIter_chunk_le cs co l s hlb hs hco
    · refine ih ?_ t ht'
      split
      · have := splitIterEnd_nonneg cs co l s hlb hco
        omega
      · omega

/-- C4: whenever `split_text` returns (with any fuel), under valid parameters
`0 < chunk_size` and `chunk_overlap < chunk_size`, every returned chunk has
length at most `chunk_size + 2` (two being the length of the longest
boundary marker, the double newline; in fact the code never exceeds
`chunk_size` itself, since `rfind` only finds markers lying wholly inside
the window). -/
theorem split_text_chunk_length_bound (fuel cs co : Nat) (l : List Char)
    (out : List (List Char)) (hcs : 0 < cs) (hco : co < cs)
    (h : split_text fuel cs co l = some out) :
    ∀ c ∈ out, c.length ≤ cs + 2 := by
  unfold split_text at h
  split at h
  · obtain rfl : ([] : List (List Char)) = out := by injection h
    intro c hc
    exact absurd hc (List.not_mem_nil c)
  · obtain ⟨tr, htr, hout⟩ := Option.map_eq_some'.mp h
    obtain ⟨rest, hrest, hchain⟩ := splitLoop_chainRun cs co l fuel 0 [] tr htr
    simp only [List.reverse_nil, List.nil_append] at hrest
    subst hrest
    intro c hc
    rw [← hout] at hc
    obtain ⟨t, ht, hce⟩ := List.mem_filterMap.mp hc
    have hbound := chainRun_chunk_le cs co l hco hchain (by omega) t ht
    have heq : t.2.2 = c := by
      by_cases he : t.2.2.isEmpty
      · simp [he] at hce
      · simp [he] at hce; exact hce
    rw [heq] at hbound
    omega

/-- Witness for C4: a concrete terminating run; each of the four chunks of
`split_text 20 5 2 "ab.cd.ef.gh"` has length at most `5 + 2`. -/
theorem split_text_chunk_length_bound_witness :
    "ab.".toList.length ≤ 5 + 2 ∧ "b.cd.".toList.length ≤ 5 + 2 ∧
    "d.ef.".toList.length ≤ 5 + 2 ∧ "f.gh".toList.length ≤ 5 + 2 :=
  ⟨split_text_chunk_length_bound 20 5 2 "ab.cd.ef.gh".toList
      ["ab.".toList, "b.cd.".toList, "d.ef.".toList, "f.gh".toList]
      (by decide) (by decide) (by decide) "ab.".toList (by decide),
    split_text_chunk_length_bound 20 5 2 "ab.cd.ef.gh".toList
      ["ab.".toList, "b.cd.".toList, "d.ef.".toList, "f.gh".toList]
      (by decide) (by decide) (by decide) "b.cd.".toList (by decide),
    split_text_chunk_length_bound 20 5 2 "ab.cd.ef.gh".toList
      ["ab.".toList, "b.cd.".toList, "d.ef.".toList, "f.gh".toList]
      (by decide) (by decide) (by decide) "d.ef.".toList (by decide),
    split_text_chunk_length_bound 20 5 2 "ab.cd.ef.gh".toList
      ["ab.".toList, "b.cd.".toList, "d.ef.".toList, "f.gh".toList]
      (by decide) (by decide) (by decide) "f.gh".toList (by decide)⟩

/-! ## C3: overlap continuity of consecutive chunks -/

/-- Default trace entry, used with `List.getD`. -/
def dEntry : Int × Int × List Char := (0, 0, [])

theorem pyIdx_min (n : Nat) {i : Int} (h0 : 0 ≤ i) : pyIdx n i = min i.toNat n := by
  unfold pyIdx
  rw [if_neg (by omega)]

theorem chainRun_adjacent (cs co : Nat) (l : List Char) :
    ∀ {s : Int} {tr : List (Int × Int × List Char)}, ChainRun cs co l s tr →
      ∀ i, i + 1 < tr.length →
        (tr.getD i dEntry).2.1 < (l.length : Int) ∧
        (tr.getD (i + 1) dEntry).1 = (tr.getD i dEntry).2.1 - co := by
  intro s tr h
  induction h with
  | nil _ => intro i hi; simp at hi
  | @cons s rest hs hrest ih =>
    intro i hi
    cases i with
    | zero =>
      cases rest with
      | nil => simp at hi
      | cons r rest' =>
        cases hrest with
        | cons h' hrest' =>
          have hel : splitIterEnd cs l s < (l.length : Int) := by
            by_contra hge
            rw [if_neg hge] at h'
            exact absurd h' (lt_irrefl _)
          refine ⟨by simpa using hel, ?_⟩
          simp only [List.getD_cons_succ, List.getD_cons_zero]
          rw [if_pos hel]
    | succ j =>
      have hj : j + 1 < rest.length := by
        simpa using hi
      have := ih j hj
      simpa only [List.getD_cons_succ] using this

theorem slice_overlap (l : List Char) (a b b2 co : Nat)
    (hab : a + co ≤ b) (hb : b ≤ l.length) (hbb2 : b ≤ b2) :
    ((l.take b2).drop (b - co)).take co
      = ((l.take b).drop a).drop (((l.take b).drop a).length - co) := by
  have hL : ((l.take b2).drop (b - co)).take co = (l.drop (b - co)).take co := by
    rw [List.drop_take, List.take_take, min_eq_left (by omega : co ≤ b2 - (b - co))]
  have hR : ((l.take b).drop a).drop (((l.take b).drop a).length - co)
      = (l.drop (b - co)).take co := by
    rw [List.drop_take, List.length_take, List.length_drop,
      min_eq_left (by omega : b - a ≤ l.length - a), List.drop_take, List.drop_drop]
    have e1 : a + ((b - a) - co) = b - co := by omega
    have e2 : (b - a) - ((b - a) - co) = co := by omega
    rw [e1, e2]
  rw [hL, hR]

theorem filterMap_if_nonempty :
    ∀ (tr : List (Int × Int × List Char)),
      (∀ t ∈ tr, t.2.2.isEmpty = false) →
      tr.filterMap (fun t => if t.2.2.isEmpty then none else some t.2.2)
        = tr.map (fun t => t.2.2) := by
  intro tr
  induction tr with
  | nil => intro _; rfl
  | cons t rest ih =>
    intro h
    rw [List.filterMap_cons, List.map_cons]
    rw [if_neg (by simp [h t (List.mem_cons_self t rest)])]
    rw [ih (fun t' ht' => h t' (List.mem_cons_of_mem t ht'))]

/-- C3: for a terminating run of the `split_text` loop in which no chunk is
altered by whitespace stripping (each recorded chunk equals its raw window
slice), every window starts at a non-negative offset and is at least
`chunk_overlap` long, and the window ends are monotone (the boundary search
always finds a cut at or beyond the previous one — the claim's "a boundary
character exists near each cut point"), the output of `split_text` is
exactly the recorded chunks and the last `chunk_overlap` characters of each
non-final chunk reappear as the head of the next chunk. -/
theorem split_text_overlap_continuity (fuel cs co : Nat) (l : List Char)
    (tr : List (Int × Int × List Char))
    (hrun : splitLoop cs co l fuel 0 [] = some tr)
    (hne : (pyStrip l).isEmpty = false)
    (hraw : ∀ t ∈ tr, t.2.2 = pySlice l t.1 t.2.1)
    (hwin : ∀ t ∈ tr, 0 ≤ t.1 ∧ t.1 + (co : Int) ≤ t.2.1)
    (hnn : ∀ t ∈ tr, t.2.2.isEmpty = false)
    (hmono : ∀ i, i + 1 < tr.length →
      (tr.getD i dEntry).2.1 ≤ (tr.getD (i + 1) dEntry).2.1) :
    split_text fuel cs co l = some (tr.map (fun t => t.2.2)) ∧
    ∀ i, i + 1 < tr.length →
      ((tr.getD (i + 1) dEntry).2.2).take co
        = ((tr.getD i dEntry).2.2).drop (((tr.getD i dEntry).2.2).length - co) := by
  obtain ⟨rest, hrest, hchain⟩ := splitLoop_chainRun cs co l fuel 0 [] tr hrun
  simp only [List.reverse_nil, List.nil_append] at hrest
  subst hrest
  refine ⟨?_, ?_⟩
  · unfold split_text
    rw [if_neg (by simp [hne]), hrun]
    simp only [Option.map_some']
    rw [filterMap_if_nonempty _ hnn]
  · intro i hi
    have hi0 : i < tr.length := by omega
    have hmem_i : tr.getD i dEntry ∈ tr := by
      rw [List.getD_eq_getElem tr dEntry hi0]; exact List.getElem_mem hi0
    have hmem_j : tr.getD (i + 1) dEntry ∈ tr := by
      rw [List.getD_eq_getElem tr dEntry hi]; exact List.getElem_mem hi
    obtain ⟨hadj_lt, hadj⟩ := chainRun_adjacent cs co l hchain i hi
    have hm : (tr.getD i dEntry).2.1 ≤ (tr.getD (i + 1) dEntry).2.1 := hmono i hi
    obtain ⟨ha0, haw⟩ := hwin _ hmem_i
    obtain ⟨hb0, hbw⟩ := hwin _ hmem_j
    have hres_i := hraw _ hmem_i
    have hres_j := hraw _ hmem_j
    have hsi_lt : (tr.getD i dEntry).1 < (l.length : Int) := by omega
    have hA : pyIdx l.length (tr.getD i dEntry).1 = (tr.getD i dEntry).1.toNat :=
      pyIdx_of_nonneg_lt ha0 hsi_lt
    have hB : pyIdx l.length (tr.getD i dEntry).2.1 = (tr.getD i dEntry).2.1.toNat :=
      pyIdx_of_nonneg_lt (by omega) hadj_lt
    have hSJ : pyIdx l.length (tr.getD (i + 1) dEntry).1
        = (tr.getD i dEntry).2.1.toNat - co := by
      rw [pyIdx_of_nonneg_lt (by omega) (by omega)]
      omega
    have hEJ : (tr.getD i dEntry).2.1.toNat
        ≤ pyIdx l.length (tr.getD (i + 1) dEntry).2.1 := by
      rw [pyIdx_min l.length (by omega : (0 : Int) ≤ (tr.getD (i + 1) dEntry).2.1)]
      exact le_min (by omega) (by omega)
    rw [hres_i, hres_j]
    unfold pySlice
    rw [hA, hB, hSJ]
    exact slice_overlap l (tr.getD i dEntry).1.toNat (tr.getD i dEntry).2.1.toNat
      (pyIdx l.length (tr.getD (i + 1) dEntry).2.1) co (by omega) (by omega) hEJ

/-- The trace of the terminating run `split_text 20 5 2 "ab.cd.ef.gh"`. -/
def c3trace : List (Int × Int × List Char) :=
  [(0, 3, "ab.".toList), (1, 6, "b.cd.".toList), (4, 9, "d.ef.".toList), (7, 12, "f.gh".toList)]

/-- Witness for C3 at a concrete input: every pair of consecutive chunks of
`split_text 20 5 2 "ab.cd.ef.gh"` overlaps in its last/first 2 characters. -/
theorem split_text_overlap_continuity_witness :
    split_text 20 5 2 "ab.cd.ef.gh".toList = some (c3trace.map (fun t => t.2.2)) ∧
    ∀ i, i + 1 < c3trace.length →
      ((c3trace.getD (i + 1) dEntry).2.2).take 2
        = ((c3trace.getD i dEntry).2.2).drop (((c3trace.getD i dEntry).2.2).length - 2) :=
  split_text_overlap_continuity 20 5 2 "ab.cd.ef.gh".toList c3trace (by decide) (by decide)
    (by decide) (by decide) (by decide)
    (by
      intro i hi
      have h4 : c3trace.length = 4 := by decide
      have h3 : i < 3 := by omega
      interval_cases i <;> decide)

/-! ## Python dictionaries as association lists -/

/-- Python `d[k]` / `d.get(k)`: first-match lookup. -/
def dictGet {K V : Type} [DecidableEq K] : List (K × V) → K → Option V
  | [], _ => none
  | (k', v) :: rest, k => if k' = k then some v else dictGet rest k

/-- Python `d[k] = v`: overwrite in place if the key exists (keeping its
insertion position), else append. -/
def dictUpd {K V : Type} [DecidableEq K] : List (K × V) → K → V → List (K × V)
  | [], k, v => [(k, v)]
  | (k', v') :: rest, k, v =>
    if k' = k then (k, v) :: rest else (k', v') :: dictUpd rest k v

/-! ## C2: the effective top-k of `GenerationService.generate_answer`
(`src/services/generation_service.py` line 46, and the floor inside
`RetrievalService.retrieve`, `src/services/retrieval_service.py`
lines 51-54) -/

/-- `effective_top_k = top_k if top_k is not None else max(10, self.retrieval_service.top_k)`. -/
def generation_effective_top_k (top_k : Option Nat) (retrieval_default_top_k : Nat) : Nat :=
  match top_k with
  | some k => k
  | none => max 10 retrieval_default_top_k

/-- The floor applied inside `retrieve`: `max(top_k, 15)` when a value is
passed, `max(self.top_k, 15)` otherwise. -/
def retrieval_search_top_k (top_k : Option Nat) (service_top_k : Nat) : Nat :=
  match top_k with
  | some k => max k 15
  | none => max service_top_k 15

/-- Counterexample for C2: with a supplied `top_k = 3` (and service default
3), the value passed to the retrieval service is 3 — not `max(3, 10)`, and
not at least 10. -/
theorem generation_top_k_not_floored :
    generation_effective_top_k (some 3) 3 = 3 ∧
    generation_effective_top_k (some 3) 3 ≠ max 3 10 ∧
    ¬ 10 ≤ generation_effective_top_k (some 3) 3 := by decide

/-- C2 (amended): a supplied `top_k` is passed to the retrieval service
unchanged; the `max(10, ·)` floor applies only when `top_k` is omitted; the
retrieval service itself then floors the received value at 15. -/
theorem generation_effective_top_k_spec (k d : Nat) :
    generation_effective_top_k (some k) d = k ∧
    generation_effective_top_k none d = max 10 d ∧
    15 ≤ retrieval_search_top_k (some (generation_effective_top_k (some k) d)) d := by
  refine ⟨rfl, rfl, ?_⟩
  simp [retrieval_search_top_k, generation_effective_top_k]

/-! ## C9: the exception taxonomy (`src/utils/exceptions.py`) -/

/-- A Python exception as seen by `handle_exception`: an `APIException`
(carrying message and HTTP status), any other `RAGSystemException`
(carrying message and symbolic code), or a non-domain exception (its
`str(·)` text). -/
inductive PyExc where
  | api (message : String) (status_code : Nat)
  | rag (message : String) (code : String)
  | other (text : String)

/-- `ResourceNotFoundException(resource_type, resource_id)`: an
`APIException` with message `f"{resource_type} {resource_id} 未找到"` and
status 404. -/
def ResourceNotFoundException (resource_type resource_id : String) : PyExc :=
  .api (resource_type ++ " " ++ resource_id ++ " 未找到") 404

/-- `InvalidRequestException(message)`: an `APIException` with status 400. -/
def InvalidRequestException (message : String) : PyExc :=
  .api message 400

/-- `RetrievalException(reason)`: a non-API `RAGSystemException`
(a `ServiceException`) with code `SERVICE_ERROR`. -/
def RetrievalException (reason : String) : PyExc :=
  .rag ("文档检索失败: " ++ reason) "SERVICE_ERROR"

/-- `handle_exception`: API errors keep their own message and status; other
domain errors map to `(message, 500)`; anything else maps to
`(f"未知错误: {exception}", 500)`. -/
def handle_exception : PyExc → String × Nat
  | .api m s => (m, s)
  | .rag m _ => (m, 500)
  | .other t => ("未知错误: " ++ t, 500)

/-- C9: the classifier returns `(message, status)` for API-category errors
(e.g. a not-found error yields its message and 404), `(message, 500)` for
any other domain error, and a generic message containing the original text
with status 500 for non-domain errors. -/
theorem handle_exception_classification (m c t rt rid : String) (s : Nat) :
    handle_exception (.api m s) = (m, s) ∧
    handle_exception (.rag m c) = (m, 500) ∧
    (∃ generic, handle_exception (.other t) = (generic ++ t, 500)) ∧
    handle_exception (ResourceNotFoundException rt rid)
      = (rt ++ " " ++ rid ++ " 未找到", 404) :=
  ⟨rfl, rfl, ⟨"未知错误: ", rfl⟩, rfl⟩

/-! ## C7: the vector store manager (`src/core/vector_store_manager.py`) -/

/-- Manager state: the "prefer Qdrant" flag and the active backend label. -/
structure VectorStoreManager where
  use_qdrant : Bool
  store_type : String

/-- The environment `_try_qdrant` runs in: whether the connectivity probe
succeeds and whether `QdrantStore(...)` construction succeeds (its
exceptions are caught inside `_try_qdrant`). -/
structure QdrantEnv where
  test_connection : Bool
  construct_ok : Bool

/-- `_try_qdrant`: true iff the probe and the construction both succeed. -/
def try_qdrant (env : QdrantEnv) : Bool :=
  env.test_connection && env.construct_ok

/-- `_initialize_store` (plus `_use_faiss`): try Qdrant when preferred, else
fall back to FAISS; only a FAISS-construction failure escapes as an error. -/
def initialize_store (use_qdrant : Bool) (env : QdrantEnv) (faiss_ok : Bool) :
    Except String VectorStoreManager :=
  if use_qdrant && try_qdrant env then .ok ⟨use_qdrant, "Qdrant"⟩
  else if faiss_ok then .ok ⟨use_qdrant, "FAISS"⟩
  else .error "FAISS 初始化失败"

/-- `get_store_type`. -/
def get_store_type (m : VectorStoreManager) : String := m.store_type

/-- `is_using_faiss`. -/
def is_using_faiss (m : VectorStoreManager) : Bool := m.store_type == "FAISS"

/-- The `is_degraded` entry of `get_store_info`:
`self.is_using_faiss() and self.use_qdrant`. -/
def get_store_info_is_degraded (m : VectorStoreManager) : Bool :=
  is_using_faiss m && m.use_qdrant

/-- C7: with the Qdrant preference set and either the connectivity probe or
the Qdrant construction failing (while FAISS construction succeeds, as the
claim presumes an operable local store), construction completes without
error, the active backend is the local FAISS one, and `is_degraded` is
true. -/
theorem manager_fails_over_to_faiss (env : QdrantEnv)
    (hfail : env.test_connection = false ∨ env.construct_ok = false) :
    ∃ m, initialize_store true env true = .ok m ∧
      get_store_type m = "FAISS" ∧ get_store_info_is_degraded m = true := by
  refine ⟨⟨true, "FAISS"⟩, ?_, rfl, rfl⟩
  unfold initialize_store try_qdrant
  rcases hfail with h | h <;> simp [h]

/-- Witness for C7: a concrete environment whose connectivity probe fails. -/
theorem manager_fails_over_to_faiss_witness :
    ∃ m, initialize_store true ⟨false, true⟩ true = .ok m ∧
      get_store_type m = "FAISS" ∧ get_store_info_is_degraded m = true :=
  manager_fails_over_to_faiss ⟨false, true⟩ (Or.inl rfl)

/-! ## Retrieval results and `RetrievalService._merge_results`
(`src/services/retrieval_service.py`, lines 184-217) -/

/-- `VectorSearchResult` (`src/core/vector_store.py`): one retrieval hit.
Scores (Python floats) are modelled as rationals. -/
structure VectorSearchResult where
  id : String
  score : ℚ
  text : String
  metadata : List (String × String)
deriving DecidableEq

/-- Stable insertion (into an already sorted list) for the stable sort
below: the new element goes after every element `x` with `le x r`. -/
def stableInsert {α : Type} (le : α → α → Bool) (r : α) : List α → List α
  | [] => [r]
  | x :: xs => if le x r then x :: stableInsert le r xs else r :: x :: xs

/-- Python's stable `list.sort`, as a stable insertion sort: elements are
inserted in input order, each after all already-placed elements it does not
strictly precede. -/
def stableSort {α : Type} (le : α → α → Bool) (l : List α) : List α :=
  l.foldl (fun acc r => stableInsert le r acc) []

/-- One assignment step of the dedup dictionary: a new id is inserted; an
existing id is overwritten only when the new score is strictly higher. -/
def mergeUpd (d : List (String × VectorSearchResult)) (r : VectorSearchResult) :
    List (String × VectorSearchResult) :=
  match dictGet d r.id with
  | none => dictUpd d r.id r
  | some prev => if prev.score < r.score then dictUpd d r.id r else d

/-- `_merge_results`: fold `results1` then `results2` into the dedup
dictionary, take the values in insertion order, sort by score descending
(Python's stable `sort(..., reverse=True)`), and truncate to `top_k`. -/
def merge_results (results1 results2 : List VectorSearchResult) (top_k : Nat) :
    List VectorSearchResult :=
  let seen := results2.foldl mergeUpd (results1.foldl mergeUpd [])
  let merged := seen.map (fun p => p.2)
  (stableSort (fun a b => decide (b.score ≤ a.score)) merged).take top_k

/-- Counterexample for C6: with `top_k = 1` and an id `"a"` occurring in both
input lists with different scores (1 and 2), the merged output is just
`["b"]` — the duplicated id `"a"` occurs zero times, not exactly once,
because the output is truncated to `top_k` after deduplication. -/
theorem merge_results_truncation_drops_duplicate :
    (merge_results [⟨"a", 1, "", []⟩, ⟨"b", 9, "", []⟩] [⟨"a", 2, "", []⟩] 1).map
        (fun r => r.id) = ["b"] ∧
    ((merge_results [⟨"a", 1, "", []⟩, ⟨"b", 9, "", []⟩] [⟨"a", 2, "", []⟩] 1).map
        (fun r => r.id)).count "a" = 0 := by
  decide

/-! ## The generation service (`src/services/generation_service.py`) -/

/-- One entry of the `sources` list built by `generate_answer`: the text is
truncated to 200 characters with an ellipsis. -/
structure Source where
  id : String
  text : String
  score : ℚ
  metadata : List (String × String)
deriving DecidableEq

/-- The record returned by `generate_answer`. -/
structure GenAnswer where
  answer : String
  sources : List Source
  has_sources : Bool
deriving DecidableEq

/-- Default result value (used with `List.getD`). -/
def dRes : VectorSearchResult := ⟨"", 0, "", []⟩

/-- Python `str.strip()` on a `String`. -/
def pyStripStr (s : String) : String := String.mk (pyStrip s.toList)

/-- The dedup pass of `_build_context`: keep the first occurrence of each
`text[:100].strip()` key. -/
def dedupByTextKey : List VectorSearchResult → List String → List VectorSearchResult
  | [], _ => []
  | r :: rest, seen =>
    let key := pyStripStr (r.text.take 100)
    if key ∈ seen then dedupByTextKey rest seen
    else r :: dedupByTextKey rest (seen ++ [key])

/-- The `for i in range(1, min(len(results), max_blocks))` loop of
`_select_relevant_blocks_simple`: append blocks whose score is within the
threshold; at the first below-threshold block, stop — after appending it
once more when fewer than two blocks are selected so far. -/
def selLoop (results : List VectorSearchResult) (threshold : ℚ) (bound : Nat) :
    Nat → List VectorSearchResult → List VectorSearchResult
  | i, selected =>
    if h : i < bound then
      if threshold ≤ (results.getD i dRes).score then
        selLoop results threshold bound (i + 1) (selected ++ [results.getD i dRes])
      else if 2 ≤ selected.length then selected
      else selected ++ [results.getD i dRes]
    else selected
termination_by i _ => bound - i
decreasing_by simp_wf; omega

/-- The trailing `while len(selected) < min_blocks` loop of
`_select_relevant_blocks_simple`. -/
def fillLoop (results : List VectorSearchResult) (min_blocks : Nat)
    (selected : List VectorSearchResult) : List VectorSearchResult :=
  if h : selected.length < min_blocks ∧ selected.length < results.length then
    fillLoop results min_blocks (selected ++ [results.getD selected.length dRes])
  else selected
termination_by min_blocks - selected.length
decreasing_by
  simp_wf
  omega

/-- `_select_relevant_blocks_simple(results, min_blocks, max_blocks)`. -/
def select_relevant_blocks_simple (results : List VectorSearchResult)
    (min_blocks max_blocks : Nat) : List VectorSearchResult :=
  if results.isEmpty then []
  else if results.length ≤ max_blocks then results.take max_blocks
  else
    let selected0 := [results.headD dRes]
    if results.length = 1 then selected0
    else
      let max_score := (results.headD dRes).score
      let threshold := max_score - 1 / 10
      fillLoop results min_blocks
        (selLoop results threshold (min results.length max_blocks) 1 selected0)

/-- `_build_context`: sort by score descending, dedup by the first 100
characters of the text, select 1-5 blocks, join as `[文档 i]\ntext` blocks
separated by blank lines. -/
def build_context (results : List VectorSearchResult) : String :=
  if results.isEmpty then ""
  else
    let sorted_results := stableSort (fun a b => decide (b.score ≤ a.score)) results
    let unique_results := dedupByTextKey sorted_results []
    let selected := select_relevant_blocks_simple unique_results 1 5
    String.intercalate "\n\n"
      ((List.range selected.length).map
        (fun i => "[文档 " ++ toString (i + 1) ++ "]\n" ++ (selected.getD i dRes).text))

/-- `_build_prompt(question, context)`. -/
def build_prompt (question context : String) : String :=
  "你是一个专业的问答助手。请仔细阅读以下文档内容，并基于这些文档内容准确、全面地回答用户的问题。\n\n文档内容：\n"
    ++ context
    ++ "\n\n用户问题：" ++ question
    ++ "\n\n重要提示：\n1. **仔细阅读**：请仔细阅读所有提供的文档内容，整合其中的信息来回答问题。\n\n2. **信息整合**：\n   - 如果文档中明确提到了相关信息，请直接引用文档内容回答\n   - 如果文档中提到了相关概念但信息不完整，请基于文档内容进行合理推断\n   - 如果文档中提供了不同角度的信息，请整合这些信息给出全面的答案\n   - 只有在文档中完全没有相关信息时，才告知用户文档中没有相关信息\n\n3. **回答要求**：\n   - 回答要准确、简洁、专业\n   - 优先使用文档中的原话或关键信息\n   - 回答要自然流畅，不要暴露技术细节（如\"文档块\"、\"相似度\"等术语）\n   - 直接回答问题，就像在阅读完整文档后回答一样\n\n4. **回答格式**：\n   - 如果文档中有明确答案，直接给出答案\n   - 如果需要进行推断，可以说明\"根据文档内容\"或\"基于文档信息\"\n   - 回答要符合自然对话的风格，让用户感觉像是在与熟悉文档的助手对话\n\n请开始回答："

/-- One `sources` entry: text truncated to 200 characters with `"..."`. -/
def mkSource (r : VectorSearchResult) : Source :=
  ⟨r.id, if 200 < r.text.length then r.text.take 200 ++ "..." else r.text,
    r.score, r.metadata⟩

/-- `generate_answer`, parameterised by the retrieval results for the
question and by the LLM; the second component counts how many times
`self.llm_service.generate` is invoked during the call. -/
def generate_answer (question : String) (results : List VectorSearchResult)
    (llm : String → String) : GenAnswer × Nat :=
  if results.isEmpty then
    (⟨"抱歉，我没有找到相关的文档来回答这个问题。", [], false⟩, 0)
  else
    let context := build_context results
    let prompt := build_prompt question context
    let answer := llm prompt
    (⟨answer, results.map mkSource, true⟩, 1)

/-- C8: with zero retrieval hits, `generate_answer` returns exactly the
fixed apology answer, an empty sources list and `has_sources = false`, and
the LLM is invoked zero times — for every question and every LLM. -/
theorem generate_answer_empty_short_circuit (question : String) (llm : String → String) :
    generate_answer question [] llm =
      (⟨"抱歉，我没有找到相关的文档来回答这个问题。", [], false⟩, 0) := rfl

/-! ## Properties of the stable sort and of the dictionary model -/

theorem stableInsert_perm {α : Type} (le : α → α → Bool) (r : α) :
    ∀ l : List α, (stableInsert le r l).Perm (r :: l) := by
  intro l
  induction l with
  | nil => exact List.Perm.refl _
  | cons x xs ih =>
    show (if le x r then x :: stableInsert le r xs else r :: x :: xs).Perm (r :: x :: xs)
    split
    · exact (ih.cons x).trans (List.Perm.swap r x xs)
    · exact List.Perm.refl _

theorem stableSort_perm {α : Type} (le : α → α → Bool) (l : List α) :
    (stableSort le l).Perm l := by
  suffices h : ∀ (l acc : List α),
      (l.foldl (fun acc r => stableInsert le r acc) acc).Perm (acc ++ l) by
    simpa using h l []
  intro l
  induction l with
  | nil => intro acc; simp
  | cons x xs ih =>
    intro acc
    calc ((x :: xs).foldl (fun acc r => stableInsert le r acc) acc)
        = xs.foldl (fun acc r => stableInsert le r acc) (stableInsert le x acc) := rfl
      _ |>.Perm (stableInsert le x acc ++ xs) := ih _
      _ |>.Perm ((x :: acc) ++ xs) := (stableInsert_perm le x acc).append_right xs
      _ |>.Perm (acc ++ x :: xs) := List.perm_middle.symm

theorem stableInsert_pairwise {α : Type} {le : α → α → Bool}
    (htrans : ∀ a b c, le a b = true → le b c = true → le a c = true)
    (htot : ∀ a b, le a b = true ∨ le b a = true) (r : α) :
    ∀ {l : List α}, List.Pairwise (fun a b => le a b = true) l →
      List.Pairwise (fun a b => le a b = true) (stableInsert le r l) := by
  intro l
  induction l with
  | nil => intro _; simp [stableInsert]
  | cons x xs ih =>
    intro hp
    obtain ⟨hx, hxs⟩ := List.pairwise_cons.mp hp
    show List.Pairwise _ (if le x r then x :: stableInsert le r xs else r :: x :: xs)
    split
    · case isTrue h =>
      refine List.pairwise_cons.mpr ⟨?_, ih hxs⟩
      intro b hb
      rcases List.mem_cons.mp ((stableInsert_perm le r xs).mem_iff.mp hb) with rfl | hbxs
      · exact h
      · exact hx b hbxs
    · case isFalse h =>
      have hrx : le r x = true := by
        rcases htot r x with h' | h'
        · exact h'
        · exact absurd h' (by simpa using h)
      refine List.pairwise_cons.mpr ⟨?_, hp⟩
      intro b hb
      rcases List.mem_cons.mp hb with rfl | hbxs
      · exact hrx
      · exact htrans r x b hrx (hx b hbxs)

theorem stableSort_pairwise {α : Type} {le : α → α → Bool}
    (htrans : ∀ a b c, le a b = true → le b c = true → le a c = true)
    (htot : ∀ a b, le a b = true ∨ le b a = true) (l : List α) :
    List.Pairwise (fun a b => le a b = true) (stableSort le l) := by
  suffices h : ∀ (l acc : List α), List.Pairwise (fun a b => le a b = true) acc →
      List.Pairwise (fun a b => le a b = true)
        (l.foldl (fun acc r => stableInsert le r acc) acc) by
    exact h l [] List.Pairwise.nil
  intro l
  induction l with
  | nil => intro acc h; exact h
  | cons x xs ih => intro acc h; exact ih _ (stableInsert_pairwise htrans htot x h)

theorem dictUpd_self_mem {K V : Type} [DecidableEq K] (d : List (K × V)) (k : K) (v : V) :
    (k, v) ∈ dictUpd d k v := by
  induction d with
  | nil => simp [dictUpd]
  | cons q rest ih =>
    obtain ⟨k', v'⟩ := q
    by_cases hk : k' = k
    · simp [dictUpd, hk]
    · simp only [dictUpd, if_neg hk, List.mem_cons]
      exact Or.inr ih

theorem dictUpd_keys {K V : Type} [DecidableEq K] (d : List (K × V)) (k : K) (v : V) :
    (dictUpd d k v).map Prod.fst
      = if k ∈ d.map Prod.fst then d.map Prod.fst else d.map Prod.fst ++ [k] := by
  induction d with
  | nil => simp [dictUpd]
  | cons q rest ih =>
    obtain ⟨k', v'⟩ := q
    by_cases hk : k' = k
    · subst hk
      simp [dictUpd]
    · have hne : ¬(k = k') := fun he => hk he.symm
      simp only [dictUpd, if_neg hk, List.map_cons, List.mem_cons, hne, false_or]
      rw [ih]
      split
      · rfl
      · simp

theorem dictUpd_keys_nodup {K V : Type} [DecidableEq K] {d : List (K × V)}
    (h : (d.map Prod.fst).Nodup) (k : K) (v : V) :
    ((dictUpd d k v).map Prod.fst).Nodup := by
  rw [dictUpd_keys]
  split
  · exact h
  · case isFalse hk =>
    rw [List.nodup_append]
    exact ⟨h, List.nodup_singleton k, by
      intro a ha hb
      rw [List.mem_singleton] at hb
      subst hb
      exact hk ha⟩

theorem dictGet_eq_some_of_mem {K V : Type} [DecidableEq K] {d : List (K × V)}
    (hnd : (d.map Prod.fst).Nodup) {p : K × V} (hp : p ∈ d) :
    dictGet d p.1 = some p.2 := by
  induction d with
  | nil => cases hp
  | cons q rest ih =>
    obtain ⟨k', v'⟩ := q
    have hnd2 : (k' :: rest.map Prod.fst).Nodup := hnd
    obtain ⟨hknin, hknd⟩ := List.nodup_cons.mp hnd2
    rcases List.mem_cons.mp hp with rfl | hp'
    · simp [dictGet]
    · have hne : k' ≠ p.1 := by
        intro he
        exact hknin (he ▸ List.mem_map.mpr ⟨p, hp', rfl⟩)
      simp only [dictGet, if_neg hne]
      exact ih hknd hp'

theorem dictGet_mem {K V : Type} [DecidableEq K] {d : List (K × V)} {k : K} {v : V}
    (h : dictGet d k = some v) : (k, v) ∈ d := by
  induction d with
  | nil => cases h
  | cons q rest ih =>
    obtain ⟨k', v'⟩ := q
    by_cases hk : k' = k
    · subst hk
      have hv : dictGet ((k', v') :: rest) k' = some v' := by simp [dictGet]
      rw [hv] at h
      obtain rfl : v' = v := by injection h
      exact List.mem_cons_self _ _
    · simp only [dictGet, if_neg hk] at h
      exact List.mem_cons_of_mem _ (ih h)

theorem dictGet_none_not_mem {K V : Type} [DecidableEq K] {d : List (K × V)} {k : K}
    (h : dictGet d k = none) : k ∉ d.map Prod.fst := by
  induction d with
  | nil => simp
  | cons q rest ih =>
    obtain ⟨k', v'⟩ := q
    by_cases hk : k' = k
    · subst hk; simp [dictGet] at h
    · simp only [dictGet, if_neg hk] at h
      simp only [List.map_cons, List.mem_cons]
      rintro (rfl | hmem)
      · exact hk rfl
      · exact ih h hmem

theorem dictUpd_mem {K V : Type} [DecidableEq K] {d : List (K × V)}
    (hnd : (d.map Prod.fst).Nodup) {k : K} {v : V} :
    ∀ p ∈ dictUpd d k v, p = (k, v) ∨ (p ∈ d ∧ p.1 ≠ k) := by
  induction d with
  | nil =>
    intro p hp
    simp [dictUpd] at hp
    exact Or.inl hp
  | cons q rest ih =>
    obtain ⟨k', v'⟩ := q
    have hnd2 : (k' :: rest.map Prod.fst).Nodup := hnd
    obtain ⟨hknin, hknd⟩ := List.nodup_cons.mp hnd2
    intro p hp
    by_cases hk : k' = k
    · subst hk
      have hu : dictUpd ((k', v') :: rest) k' v = (k', v) :: rest := by simp [dictUpd]
      rw [hu, List.mem_cons] at hp
      rcases hp with rfl | hp'
      · exact Or.inl rfl
      · refine Or.inr ⟨List.mem_cons_of_mem _ hp', fun he => ?_⟩
        exact hknin (he ▸ List.mem_map.mpr ⟨p, hp', rfl⟩)
    · simp only [dictUpd, if_neg hk, List.mem_cons] at hp
      rcases hp with rfl | hp'
      · exact Or.inr ⟨List.mem_cons_self _ _, fun he => hk he⟩
      · rcases ih hknd p hp' with h1 | ⟨h2, h3⟩
        · exact Or.inl h1
        · exact Or.inr ⟨List.mem_cons_of_mem _ h2, h3⟩

theorem dictUpd_mem_of_ne {K V : Type} [DecidableEq K] {d : List (K × V)} {k : K} {v : V}
    {p : K × V} (hp : p ∈ d) (hne : p.1 ≠ k) : p ∈ dictUpd d k v := by
  induction d with
  | nil => cases hp
  | cons q rest ih =>
    obtain ⟨k', v'⟩ := q
    by_cases hk : k' = k
    · subst hk
      rcases List.mem_cons.mp hp with rfl | hp'
      · exact absurd rfl hne
      · have hu : dictUpd ((k', v') :: rest) k' v = (k', v) :: rest := by simp [dictUpd]
        rw [hu]
        exact List.mem_cons_of_mem _ hp'
    · simp only [dictUpd, if_neg hk, List.mem_cons]
      rcases List.mem_cons.mp hp with rfl | hp'
      · exact Or.inl rfl
      · exact Or.inr (ih hp')

theorem dictUpd_length_le {K V : Type} [DecidableEq K] (d : List (K × V)) (k : K) (v : V) :
    (dictUpd d k v).length ≤ d.length + 1 := by
  induction d with
  | nil => simp [dictUpd]
  | cons q rest ih =>
    obtain ⟨k', v'⟩ := q
    by_cases hk : k' = k
    · simp [dictUpd, hk]
    · simp only [dictUpd, if_neg hk, List.length_cons]
      omega

theorem mem_eq_of_keys_nodup {K V : Type} [DecidableEq K] {d : List (K × V)}
    (hnd : (d.map Prod.fst).Nodup) {p q : K × V} (hp : p ∈ d) (hq : q ∈ d)
    (h : q.1 = p.1) : q = p := by
  have h1 := dictGet_eq_some_of_mem hnd hq
  have h2 := dictGet_eq_some_of_mem hnd hp
  rw [h, h2] at h1
  obtain h3 : p.2 = q.2 := by injection h1
  exact Prod.ext h (h3.symm)

theorem mergeUpd_keys_nodup {d : List (String × VectorSearchResult)}
    (hnd : (d.map Prod.fst).Nodup) (r : VectorSearchResult) :
    ((mergeUpd d r).map Prod.fst).Nodup := by
  unfold mergeUpd
  cases dictGet d r.id with
  | none => exact dictUpd_keys_nodup hnd _ _
  | some prev =>
    show (List.map Prod.fst (if prev.score < r.score then dictUpd d r.id r else d)).Nodup
    by_cases hlt : prev.score < r.score
    · rw [if_pos hlt]; exact dictUpd_keys_nodup hnd _ _
    · rw [if_neg hlt]; exact hnd

theorem mergeUpd_key_id {d : List (String × VectorSearchResult)}
    (hnd : (d.map Prod.fst).Nodup) (hinv : ∀ p ∈ d, p.1 = p.2.id)
    (r : VectorSearchResult) : ∀ p ∈ mergeUpd d r, p.1 = p.2.id := by
  unfold mergeUpd
  cases dictGet d r.id with
  | none =>
    intro p hp
    rcases dictUpd_mem hnd p hp with rfl | ⟨h2, _⟩
    · rfl
    · exact hinv p h2
  | some prev =>
    show ∀ p ∈ (if prev.score < r.score then dictUpd d r.id r else d), p.1 = p.2.id
    by_cases hlt : prev.score < r.score
    · rw [if_pos hlt]
      intro p hp
      rcases dictUpd_mem hnd p hp with rfl | ⟨h2, _⟩
      · rfl
      · exact hinv p h2
    · rw [if_neg hlt]; exact hinv

theorem foldl_mergeUpd_nodup :
    ∀ (L : List VectorSearchResult) (d : List (String × VectorSearchResult)),
      (d.map Prod.fst).Nodup → ((L.foldl mergeUpd d).map Prod.fst).Nodup := by
  intro L
  induction L with
  | nil => intro d h; exact h
  | cons r L' ih => intro d h; exact ih _ (mergeUpd_keys_nodup h r)

theorem foldl_mergeUpd_key_id :
    ∀ (L : List VectorSearchResult) (d : List (String × VectorSearchResult)),
      (d.map Prod.fst).Nodup → (∀ p ∈ d, p.1 = p.2.id) →
      ∀ p ∈ L.foldl mergeUpd d, p.1 = p.2.id := by
  intro L
  induction L with
  | nil => intro d _ hinv; exact hinv
  | cons r L' ih =>
    intro d hnd hinv
    exact ih _ (mergeUpd_keys_nodup hnd r) (mergeUpd_key_id hnd hinv r)

theorem foldl_mergeUpd_dom :
    ∀ (L : List VectorSearchResult) (d : List (String × VectorSearchResult)),
      (d.map Prod.fst).Nodup → (∀ p ∈ d, p.1 = p.2.id) →
      ∀ p ∈ L.foldl mergeUpd d,
        (p.2 ∈ L ∨ p ∈ d) ∧
        (∀ r ∈ L, r.id = p.1 → r.score ≤ p.2.score) ∧
        (∀ q ∈ d, q.1 = p.1 → q.2.score ≤ p.2.score) := by
  intro L
  induction L with
  | nil =>
    intro d hnd _ p hp
    refine ⟨Or.inr hp, fun r hr => absurd hr (List.not_mem_nil r), fun q hq hqp => ?_⟩
    rw [mem_eq_of_keys_nodup hnd hp hq hqp]
  | cons r L' ih =>
    intro d hnd hinv p hp
    have hnd' := mergeUpd_keys_nodup hnd r
    have hinv' := mergeUpd_key_id hnd hinv r
    rw [List.foldl_cons] at hp
    obtain ⟨hprov, hdomL, hdomD⟩ := ih (mergeUpd d r) hnd' hinv' p hp
    -- facts about the single step, by cases on the dictionary lookup
    cases hg : dictGet d r.id with
    | none =>
      have hd' : mergeUpd d r = dictUpd d r.id r := by unfold mergeUpd; rw [hg]
      rw [hd'] at hprov hdomD
      refine ⟨?_, ?_, ?_⟩
      · rcases hprov with h | h
        · exact Or.inl (List.mem_cons_of_mem r h)
        · rcases dictUpd_mem hnd p h with rfl | ⟨h2, _⟩
          · exact Or.inl (List.mem_cons_self _ _)
          · exact Or.inr h2
      · intro r' hr' hid
        rcases List.mem_cons.mp hr' with rfl | hr''
        · exact hdomD (r'.id, r') (dictUpd_self_mem d r'.id r') hid
        · exact hdomL r' hr'' hid
      · intro q hq hqp
        have hqne : q.1 ≠ r.id := by
          intro he
          exact dictGet_none_not_mem hg (he ▸ List.mem_map.mpr ⟨q, hq, rfl⟩)
        exact hdomD q (dictUpd_mem_of_ne hq hqne) hqp
    | some prev =>
      by_cases hlt : prev.score < r.score
      · have hd0 : mergeUpd d r = if prev.score < r.score then dictUpd d r.id r else d := by
          unfold mergeUpd; rw [hg]
        have hd' : mergeUpd d r = dictUpd d r.id r := by rw [hd0, if_pos hlt]
        rw [hd'] at hprov hdomD
        refine ⟨?_, ?_, ?_⟩
        · rcases hprov with h | h
          · exact Or.inl (List.mem_cons_of_mem r h)
          · rcases dictUpd_mem hnd p h with rfl | ⟨h2, _⟩
            · exact Or.inl (List.mem_cons_self _ _)
            · exact Or.inr h2
        · intro r' hr' hid
          rcases List.mem_cons.mp hr' with rfl | hr''
          · exact hdomD (r'.id, r') (dictUpd_self_mem d r'.id r') hid
          · exact hdomL r' hr'' hid
        · intro q hq hqp
          by_cases hqr : q.1 = r.id
          · have hqprev : q.2 = prev := by
              have hh := dictGet_eq_some_of_mem hnd hq
              rw [hqr, hg] at hh
              injection hh with hv
              exact hv.symm
            have hrscore : r.score ≤ p.2.score :=
              hdomD (r.id, r) (dictUpd_self_mem d r.id r) (hqr ▸ hqp)
            rw [hqprev]
            exact le_trans (le_of_lt hlt) hrscore
          · exact hdomD q (dictUpd_mem_of_ne hq hqr) hqp
      · have hd0 : mergeUpd d r = if prev.score < r.score then dictUpd d r.id r else d := by
          unfold mergeUpd; rw [hg]
        have hd' : mergeUpd d r = d := by rw [hd0, if_neg hlt]
        rw [hd'] at hprov hdomD
        refine ⟨?_, ?_, ?_⟩
        · rcases hprov with h | h
          · exact Or.inl (List.mem_cons_of_mem r h)
          · exact Or.inr h
        · intro r' hr' hid
          rcases List.mem_cons.mp hr' with rfl | hr''
          · have hprevd : (r'.id, prev) ∈ d := dictGet_mem hg
            have := hdomD (r'.id, prev) hprevd hid
            exact le_trans (not_lt.mp hlt) this
          · exact hdomL r' hr'' hid
        · exact hdomD

theorem mergeUpd_keys_mem (d : List (String × VectorSearchResult))
    (r : VectorSearchResult) (k : String) :
    k ∈ (mergeUpd d r).map Prod.fst ↔ k ∈ d.map Prod.fst ∨ k = r.id := by
  unfold mergeUpd
  cases hg : dictGet d r.id with
  | none =>
    rw [dictUpd_keys, if_neg (dictGet_none_not_mem hg)]
    simp
  | some prev =>
    have hmem : r.id ∈ d.map Prod.fst := List.mem_map.mpr ⟨(r.id, prev), dictGet_mem hg, rfl⟩
    show k ∈ (if prev.score < r.score then dictUpd d r.id r else d).map Prod.fst ↔
      k ∈ d.map Prod.fst ∨ k = r.id
    by_cases hlt : prev.score < r.score
    · rw [if_pos hlt, dictUpd_keys, if_pos hmem]
      exact ⟨Or.inl, fun h => h.elim id (fun he => he ▸ hmem)⟩
    · rw [if_neg hlt]
      exact ⟨Or.inl, fun h => h.elim id (fun he => he ▸ hmem)⟩

theorem foldl_mergeUpd_keys :
    ∀ (L : List VectorSearchResult) (d : List (String × VectorSearchResult)) (k : String),
      k ∈ (L.foldl mergeUpd d).map Prod.fst ↔
        k ∈ d.map Prod.fst ∨ ∃ r ∈ L, r.id = k := by
  intro L
  induction L with
  | nil => intro d k; simp
  | cons r L' ih =>
    intro d k
    rw [List.foldl_cons, ih, mergeUpd_keys_mem]
    constructor
    · rintro ((h | rfl) | ⟨r', hr', rfl⟩)
      · exact Or.inl h
      · exact Or.inr ⟨r, List.mem_cons_self _ _, rfl⟩
      · exact Or.inr ⟨r', List.mem_cons_of_mem _ hr', rfl⟩
    · rintro (h | ⟨r', hr', rfl⟩)
      · exact Or.inl (Or.inl h)
      · rcases List.mem_cons.mp hr' with rfl | hr''
        · exact Or.inl (Or.inr rfl)
        · exact Or.inr ⟨r', hr'', rfl⟩

theorem mergeUpd_length_le (d : List (String × VectorSearchResult))
    (r : VectorSearchResult) : (mergeUpd d r).length ≤ d.length + 1 := by
  unfold mergeUpd
  cases dictGet d r.id with
  | none => exact dictUpd_length_le d _ _
  | some prev =>
    show (if prev.score < r.score then dictUpd d r.id r else d).length ≤ d.length + 1
    by_cases hlt : prev.score < r.score
    · rw [if_pos hlt]; exact dictUpd_length_le d _ _
    · rw [if_neg hlt]; omega

theorem foldl_mergeUpd_length :
    ∀ (L : List VectorSearchResult) (d : List (String × VectorSearchResult)),
      (L.foldl mergeUpd d).length ≤ d.length + L.length := by
  intro L
  induction L with
  | nil => intro d; simp
  | cons r L' ih =>
    intro d
    rw [List.foldl_cons]
    calc (L'.foldl mergeUpd (mergeUpd d r)).length
        ≤ (mergeUpd d r).length + L'.length := ih _
      _ ≤ (d.length + 1) + L'.length := by
          have := mergeUpd_length_le d r
          omega
      _ = d.length + (r :: L').length := by simp [List.length_cons]; omega

/-- C6 (amended): `_merge_results` returns a list with pairwise-distinct ids;
every returned result is one of the input results and carries the highest
score observed for its id across both input lists; the output is sorted by
score descending; and — the truncation proviso the counterexample forces —
whenever `top_k` is at least the total number of input results, every input
id does appear in the output (hence, by the distinctness, exactly once). -/
theorem merge_results_dedup_max_sorted (results1 results2 : List VectorSearchResult)
    (top_k : Nat) :
    ((merge_results results1 results2 top_k).map (fun r => r.id)).Nodup ∧
    (∀ r ∈ merge_results results1 results2 top_k,
      r ∈ results1 ++ results2 ∧
      ∀ q ∈ results1 ++ results2, q.id = r.id → q.score ≤ r.score) ∧
    List.Pairwise (fun a b => b.score ≤ a.score) (merge_results results1 results2 top_k) ∧
    ((results1 ++ results2).length ≤ top_k →
      ∀ q ∈ results1 ++ results2,
        ∃ r ∈ merge_results results1 results2 top_k, r.id = q.id) := by
  have hout : merge_results results1 results2 top_k
      = (stableSort (fun a b => decide (b.score ≤ a.score))
          (((results1 ++ results2).foldl mergeUpd []).map (fun p => p.2))).take top_k := by
    show (stableSort (fun a b => decide (b.score ≤ a.score))
        ((results2.foldl mergeUpd (results1.foldl mergeUpd [])).map (fun p => p.2))).take top_k
      = _
    rw [List.foldl_append]
  have hnodup := foldl_mergeUpd_nodup (results1 ++ results2) [] (by simp)
  have hkeyid := foldl_mergeUpd_key_id (results1 ++ results2) [] (by simp) (by simp)
  have hdom := foldl_mergeUpd_dom (results1 ++ results2) [] (by simp) (by simp)
  have htrans : ∀ a b c : VectorSearchResult,
      (decide (b.score ≤ a.score)) = true → (decide (c.score ≤ b.score)) = true →
      (decide (c.score ≤ a.score)) = true := by
    intro a b c h1 h2
    simp only [decide_eq_true_eq] at *
    exact le_trans h2 h1
  have htot : ∀ a b : VectorSearchResult,
      (decide (b.score ≤ a.score)) = true ∨ (decide (a.score ≤ b.score)) = true := by
    intro a b
    simp only [decide_eq_true_eq]
    exact le_total b.score a.score
  have hperm := stableSort_perm (fun a b : VectorSearchResult => decide (b.score ≤ a.score))
    (((results1 ++ results2).foldl mergeUpd []).map (fun p => p.2))
  refine ⟨?_, ?_, ?_, ?_⟩
  · rw [hout]
    have hids : ((stableSort (fun a b => decide (b.score ≤ a.score))
        (((results1 ++ results2).foldl mergeUpd []).map (fun p => p.2))).map
          (fun r => r.id)).Nodup := by
      refine (List.Perm.nodup_iff (hperm.map (fun r => r.id))).mpr ?_
      rw [List.map_map]
      have hmc : (((results1 ++ results2).foldl mergeUpd []).map
            ((fun r => r.id) ∘ (fun p : String × VectorSearchResult => p.2)))
          = ((results1 ++ results2).foldl mergeUpd []).map Prod.fst :=
        List.map_congr_left (fun p hp => (hkeyid p hp).symm)
      rw [hmc]
      exact hnodup
    rw [List.map_take]
    exact hids.sublist (List.take_sublist _ _)
  · rw [hout]
    intro r hr
    have hr2 : r ∈ (((results1 ++ results2).foldl mergeUpd []).map (fun p => p.2)) :=
      hperm.mem_iff.mp (List.mem_of_mem_take hr)
    obtain ⟨p, hp, rfl⟩ := List.mem_map.mp hr2
    obtain ⟨hprov, hdomL, _⟩ := hdom p hp
    refine ⟨?_, ?_⟩
    · rcases hprov with h | h
      · exact h
      · exact absurd h (List.not_mem_nil p)
    · intro q hq hqid
      exact hdomL q hq (by rw [hqid]; exact (hkeyid p hp).symm)
  · rw [hout]
    have hps := stableSort_pairwise htrans htot
      (((results1 ++ results2).foldl mergeUpd []).map (fun p => p.2))
    have hps' : List.Pairwise (fun a b : VectorSearchResult => b.score ≤ a.score)
        (stableSort (fun a b => decide (b.score ≤ a.score))
          (((results1 ++ results2).foldl mergeUpd []).map (fun p => p.2))) :=
      hps.imp (fun h => by simpa using h)
    exact hps'.sublist (List.take_sublist _ _)
  · rw [hout]
    intro hk q hq
    have hkey : q.id ∈ ((results1 ++ results2).foldl mergeUpd []).map Prod.fst :=
      (foldl_mergeUpd_keys _ [] q.id).mpr (by
        simp only [List.map_nil, List.not_mem_nil, false_or]
        exact ⟨q, hq, rfl⟩)
    obtain ⟨p, hp, hpid⟩ := List.mem_map.mp hkey
    have hmem : p.2 ∈ (((results1 ++ results2).foldl mergeUpd []).map (fun p => p.2)) :=
      List.mem_map.mpr ⟨p, hp, rfl⟩
    have hs : p.2 ∈ stableSort (fun a b => decide (b.score ≤ a.score))
        (((results1 ++ results2).foldl mergeUpd []).map (fun p => p.2)) :=
      hperm.mem_iff.mpr hmem
    have hlen : (stableSort (fun a b => decide (b.score ≤ a.score))
        (((results1 ++ results2).foldl mergeUpd []).map (fun p => p.2))).length ≤ top_k := by
      rw [hperm.length_eq, List.length_map]
      have h1 := foldl_mergeUpd_length (results1 ++ results2) []
      simp only [List.length_nil] at h1
      omega
    rw [List.take_of_length_le hlen]
    refine ⟨p.2, hs, ?_⟩
    rw [← hkeyid p hp]
    exact hpid

/-! ## The local FAISS-backed vector store (`src/core/faiss_store.py`) -/

/-- One record of `metadata_store`: `{"id": ..., "text": ..., "metadata": ...}`. -/
structure MetaEntry where
  id : String
  text : String
  metadata : List (String × String)
deriving DecidableEq

/-- The in-memory state of a `FAISSStore`: the flat index is the list of
stored vectors (position = FAISS internal index), alongside the three
bookkeeping dictionaries and the `next_idx` counter. -/
structure FAISSStore where
  dimension : Nat
  vectors : List (List Int)
  metadata_store : List (Nat × MetaEntry)
  id_to_idx : List (String × Nat)
  idx_to_id : List (Nat × String)
  next_idx : Nat
deriving DecidableEq

/-- A freshly created store (empty `IndexFlatL2`, empty dictionaries). -/
def freshFAISS (dim : Nat) : FAISSStore := ⟨dim, [], [], [], [], 0⟩

/-- The `for i, (vec_id, text, metadata) in enumerate(zip(ids, texts,
metadatas))` loop of `insert_vectors`: record each metadata entry at the
next consecutive index and update both id maps. -/
def insertEntries : List (String × String × List (String × String)) → Nat →
    List (Nat × MetaEntry) × List (String × Nat) × List (Nat × String) →
    List (Nat × MetaEntry) × List (String × Nat) × List (Nat × String)
  | [], _, st => st
  | (vid, txt, md) :: rest, idx, (ms, i2x, x2i) =>
    insertEntries rest (idx + 1)
      (dictUpd ms idx ⟨vid, txt, md⟩, dictUpd i2x vid idx, dictUpd x2i idx vid)

/-- `insert_vectors`: validate equal lengths, generate `vec_{next_idx+i}`
ids when none are supplied, append all vectors to the index, record the
metadata (over the truncating `zip`, as in Python), advance `next_idx`. -/
def insert_vectors (s : FAISSStore) (vectors : List (List Int)) (texts : List String)
    (metadatas : List (List (String × String))) (ids : Option (List String)) :
    FAISSStore × Bool :=
  if ¬(vectors.length = texts.length ∧ texts.length = metadatas.length) then (s, false)
  else
    let ids' := match ids with
      | some l => l
      | none => (List.range vectors.length).map (fun i => "vec_" ++ toString (s.next_idx + i))
    let st := insertEntries (ids'.zip (texts.zip metadatas)) s.next_idx
      (s.metadata_store, s.id_to_idx, s.idx_to_id)
    (⟨s.dimension, s.vectors ++ vectors, st.1, st.2.1, st.2.2,
      s.next_idx + vectors.length⟩, true)

/-- Squared L2 distance, the score reported by `IndexFlatL2`. -/
def sqDist (a b : List Int) : Int := ((a.zip b).map (fun p => (p.1 - p.2) * (p.1 - p.2))).sum

/-- `get_vector_count`: the index's `ntotal`. -/
def get_vector_count (s : FAISSStore) : Nat := s.vectors.length

/-- Candidate ordering of the flat index scan: ascending distance, ties by
ascending internal index. -/
def faissCandidateLe (a b : Nat × Int) : Bool :=
  decide (a.2 < b.2 ∨ (a.2 = b.2 ∧ a.1 ≤ b.1))

/-- `search`: empty index gives `[]`; otherwise take the
`min(top_k, ntotal)` nearest neighbours by squared L2 distance, look up
each hit's metadata (skipping unknown indices), apply the optional
equality filter (skipping mismatches), report `score = distance`, and
truncate to `top_k`. -/
def search (s : FAISSStore) (query_vector : List Int) (top_k : Nat)
    (filter_dict : List (String × String)) : List VectorSearchResult :=
  if s.vectors.length = 0 then []
  else
    let candidates := s.vectors.enum.map (fun p => (p.1, sqDist query_vector p.2))
    let nearest := (stableSort faissCandidateLe candidates).take (min top_k s.vectors.length)
    let results := nearest.filterMap (fun p =>
      match dictGet s.metadata_store p.1 with
      | none => none
      | some entry =>
        if filter_dict.all (fun kv => decide (dictGet entry.metadata kv.1 = some kv.2)) then
          some ⟨entry.id, ((p.2 : Int) : ℚ), entry.text, entry.metadata⟩
        else none)
    results.take top_k

/-- The accumulator of the index-rebuild loop in `delete_by_ids`. -/
structure RebuildAcc where
  vectors : List (List Int)
  metadata_store : List (Nat × MetaEntry)
  id_to_idx : List (String × Nat)
  idx_to_id : List (Nat × String)
  next_idx : Nat

/-- One iteration of the rebuild loop: skip deleted indices; re-add the
reconstructed vector; copy the metadata entry (with a fresh dense index)
when one exists. -/
def rebuildStep (s : FAISSStore) (delSet : List Nat) (acc : RebuildAcc)
    (old_idx : Nat) : RebuildAcc :=
  if old_idx ∈ delSet then acc
  else
    let v := s.vectors.getD old_idx []
    match dictGet s.metadata_store old_idx with
    | none => { acc with vectors := acc.vectors ++ [v] }
    | some entry =>
      ⟨acc.vectors ++ [v],
        dictUpd acc.metadata_store acc.next_idx entry,
        dictUpd acc.id_to_idx entry.id acc.next_idx,
        dictUpd acc.idx_to_id acc.next_idx entry.id,
        acc.next_idx + 1⟩

/-- `delete_by_ids`: resolve the ids to internal indices; if none resolve,
return success without rebuilding; otherwise rebuild the index from
scratch, skipping the resolved indices, and renumber densely from zero. -/
def delete_by_ids (s : FAISSStore) (ids : List String) : FAISSStore × Bool :=
  let delSet := ids.filterMap (fun vid => dictGet s.id_to_idx vid)
  if delSet.isEmpty then (s, true)
  else
    let acc := (List.range s.vectors.length).foldl (rebuildStep s delSet) ⟨[], [], [], [], 0⟩
    (⟨s.dimension, acc.vectors, acc.metadata_store, acc.id_to_idx, acc.idx_to_id,
      acc.next_idx⟩, true)

/-- `get_chunk_ids_by_document_id`: linear scan over all indices; report the
stored id when the metadata's `document_id` matches, or when the id has
the `{document_id}_chunk_` prefix. -/
def get_chunk_ids_by_document_id (s : FAISSStore) (document_id : String) : List String :=
  (List.range s.vectors.length).filterMap (fun idx =>
    match dictGet s.metadata_store idx with
    | none => none
    | some entry =>
      if dictGet entry.metadata "document_id" = some document_id then some entry.id
      else if (document_id ++ "_chunk_").isPrefixOf entry.id then some entry.id
      else none)

/-- C10: a concrete store (three vectors at distances 0, 1, 4 from the
query, of which the nearest-but-one fails the filter) on which
`search(query, top_k = 2, {"k": "1"})` returns only 1 result although 2
stored vectors satisfy the filter: the equality filter is applied after
fetching the `min(top_k, ntotal)` nearest neighbours, so filtered-out
neighbours shrink the result set instead of being replaced. -/
theorem search_post_filter_underfills :
    (search (insert_vectors (freshFAISS 1) [[0], [1], [2]] ["t0", "t1", "t2"]
        [[("k", "1")], [("k", "0")], [("k", "1")]] (some ["v0", "v1", "v2"])).1
      [0] 2 [("k", "1")]).length < 2 ∧
    2 ≤ ((insert_vectors (freshFAISS 1) [[0], [1], [2]] ["t0", "t1", "t2"]
        [[("k", "1")], [("k", "0")], [("k", "1")]] (some ["v0", "v1", "v2"])).1.metadata_store.filter
        (fun p => decide (dictGet p.2.metadata "k" = some "1"))).length := by
  decide

/-! ## Characterising insertion into a fresh store (for C5) -/

/-- Default entry triple, used with `List.getD`. -/
def dEnt : String × String × List (String × String) := ("", "", [])

/-- The metadata dictionary built by the insert loop from index `idx`. -/
def msFrom : Nat → List (String × String × List (String × String)) → List (Nat × MetaEntry)
  | _, [] => []
  | idx, e :: rest => (idx, ⟨e.1, e.2.1, e.2.2⟩) :: msFrom (idx + 1) rest

/-- The id-to-index dictionary built by the insert loop from index `idx`. -/
def ixFrom : Nat → List (String × String × List (String × String)) → List (String × Nat)
  | _, [] => []
  | idx, e :: rest => (e.1, idx) :: ixFrom (idx + 1) rest

/-- The index-to-id dictionary built by the insert loop from index `idx`. -/
def xiFrom : Nat → List (String × String × List (String × String)) → List (Nat × String)
  | _, [] => []
  | idx, e :: rest => (idx, e.1) :: xiFrom (idx + 1) rest

theorem dictUpd_of_not_mem {K V : Type} [DecidableEq K] {d : List (K × V)} {k : K}
    (h : k ∉ d.map Prod.fst) (v : V) : dictUpd d k v = d ++ [(k, v)] := by
  induction d with
  | nil => rfl
  | cons q rest ih =>
    obtain ⟨k', v'⟩ := q
    have hne : k' ≠ k := by
      intro he
      exact h (by simp [he])
    have hrest : k ∉ rest.map Prod.fst := by
      intro hm
      exact h (by simp [hm])
    simp only [dictUpd, if_neg hne, List.cons_append]
    rw [ih hrest]

theorem insertEntries_closed :
    ∀ (entries : List (String × String × List (String × String))) (idx0 : Nat)
      (ms : List (Nat × MetaEntry)) (i2x : List (String × Nat)) (x2i : List (Nat × String)),
      (∀ p ∈ ms, p.1 < idx0) → (∀ p ∈ x2i, p.1 < idx0) →
      ((entries.map (fun e => e.1)).Nodup) →
      (∀ e ∈ entries, e.1 ∉ i2x.map Prod.fst) →
      insertEntries entries idx0 (ms, i2x, x2i)
        = (ms ++ msFrom idx0 entries, i2x ++ ixFrom idx0 entries, x2i ++ xiFrom idx0 entries) := by
  intro entries
  induction entries with
  | nil =>
    intro idx0 ms i2x x2i _ _ _ _
    simp [insertEntries, msFrom, ixFrom, xiFrom]
  | cons e rest ih =>
    intro idx0 ms i2x x2i hms hx2i hnd hns
    obtain ⟨vid, txt, md⟩ := e
    obtain ⟨hhd, htl⟩ := List.nodup_cons.mp (show (vid :: rest.map (fun e => e.1)).Nodup from hnd)
    have h1 : idx0 ∉ ms.map Prod.fst := by
      intro hmem
      obtain ⟨p, hp, he⟩ := List.mem_map.mp hmem
      exact absurd (he ▸ hms p hp) (lt_irrefl idx0)
    have h2 : (vid : String) ∉ i2x.map Prod.fst :=
      hns (vid, txt, md) (List.mem_cons_self _ _)
    have h3 : idx0 ∉ x2i.map Prod.fst := by
      intro hmem
      obtain ⟨p, hp, he⟩ := List.mem_map.mp hmem
      exact absurd (he ▸ hx2i p hp) (lt_irrefl idx0)
    show insertEntries rest (idx0 + 1)
        (dictUpd ms idx0 ⟨vid, txt, md⟩, dictUpd i2x vid idx0, dictUpd x2i idx0 vid) = _
    rw [dictUpd_of_not_mem h1, dictUpd_of_not_mem h2, dictUpd_of_not_mem h3]
    have hih := ih (idx0 + 1) (ms ++ [(idx0, MetaEntry.mk vid txt md)]) (i2x ++ [(vid, idx0)])
      (x2i ++ [(idx0, vid)])
      (by
        intro p hp
        rcases List.mem_append.mp hp with hp' | hp'
        · exact Nat.lt_succ_of_lt (hms p hp')
        · rw [List.mem_singleton] at hp'
          subst hp'
          exact Nat.lt_succ_self idx0)
      (by
        intro p hp
        rcases List.mem_append.mp hp with hp' | hp'
        · exact Nat.lt_succ_of_lt (hx2i p hp')
        · rw [List.mem_singleton] at hp'
          subst hp'
          exact Nat.lt_succ_self idx0)
      htl
      (by
        intro e' he'
        rw [List.map_append, List.mem_append]
        rintro (hm | hm)
        · exact hns e' (List.mem_cons_of_mem _ he') hm
        · simp only [List.map_cons, List.map_nil, List.mem_singleton] at hm
          exact hhd (hm ▸ List.mem_map.mpr ⟨e', he', rfl⟩))
    rw [hih]
    simp [msFrom, ixFrom, xiFrom, List.append_assoc]

theorem dictGet_ixFrom_found :
    ∀ (entries : List (String × String × List (String × String))) (idx0 : Nat)
      (vid : String), vid ∈ entries.map (fun e => e.1) →
      ∃ j, dictGet (ixFrom idx0 entries) vid = some j := by
  intro entries
  induction entries with
  | nil => intro idx0 vid h; simp at h
  | cons e rest ih =>
    intro idx0 vid hv
    by_cases he : e.1 = vid
    · exact ⟨idx0, by simp [ixFrom, dictGet, he]⟩
    · have hv' : vid ∈ rest.map (fun e => e.1) := by
        rcases List.mem_cons.mp hv with h | h
        · exact absurd h.symm he
        · exact h
      obtain ⟨j, hj⟩ := ih (idx0 + 1) vid hv'
      exact ⟨j, by simp only [ixFrom, dictGet, if_neg he]; exact hj⟩

theorem dictGet_ixFrom_getD :
    ∀ (entries : List (String × String × List (String × String))) (idx0 i : Nat),
      ((entries.map (fun e => e.1)).Nodup) → i < entries.length →
      dictGet (ixFrom idx0 entries) ((entries.getD i dEnt).1) = some (idx0 + i) := by
  intro entries
  induction entries with
  | nil => intro idx0 i _ hi; simp at hi
  | cons e rest ih =>
    intro idx0 i hnd hi
    obtain ⟨hhd, htl⟩ :=
      List.nodup_cons.mp (show (e.1 :: rest.map (fun e => e.1)).Nodup from hnd)
    cases i with
    | zero => simp [ixFrom, dictGet]
    | succ j =>
      have hj : j < rest.length := by simpa using hi
      have hkey : (rest.getD j dEnt).1 ∈ rest.map (fun e => e.1) := by
        refine List.mem_map.mpr ⟨rest.getD j dEnt, ?_, rfl⟩
        rw [List.getD_eq_getElem rest dEnt hj]
        exact List.getElem_mem hj
      have hne : e.1 ≠ (rest.getD j dEnt).1 := fun he => hhd (he ▸ hkey)
      have harith : idx0 + 1 + j = idx0 + (j + 1) := by omega
      show dictGet ((e.1, idx0) :: ixFrom (idx0 + 1) rest) (((e :: rest).getD (j + 1) dEnt).1)
        = some (idx0 + (j + 1))
      rw [List.getD_cons_succ]
      simp only [dictGet, if_neg hne]
      rw [ih (idx0 + 1) j htl hj, harith]

theorem dictGet_ixFrom_inv :
    ∀ (entries : List (String × String × List (String × String))) (idx0 : Nat)
      (vid : String) (j : Nat),
      dictGet (ixFrom idx0 entries) vid = some j →
      idx0 ≤ j ∧ j - idx0 < entries.length ∧ (entries.getD (j - idx0) dEnt).1 = vid := by
  intro entries
  induction entries with
  | nil => intro idx0 vid j h; cases h
  | cons e rest ih =>
    intro idx0 vid j h
    by_cases he : e.1 = vid
    · have hj : j = idx0 := by
        simp only [ixFrom, dictGet, if_pos he] at h
        injection h with h'
        omega
      subst hj
      refine ⟨le_refl _, by simp, ?_⟩
      rw [Nat.sub_self]
      simpa using he
    · simp only [ixFrom, dictGet, if_neg he] at h
      obtain ⟨h1, h2, h3⟩ := ih (idx0 + 1) vid j h
      have harith : j - idx0 = (j - (idx0 + 1)) + 1 := by omega
      refine ⟨by omega, by simp; omega, ?_⟩
      rw [harith, List.getD_cons_succ]
      exact h3

theorem dictGet_ixFrom_inj {entries : List (String × String × List (String × String))}
    {idx0 : Nat} {a b : String} {j : Nat}
    (ha : dictGet (ixFrom idx0 entries) a = some j)
    (hb : dictGet (ixFrom idx0 entries) b = some j) : a = b := by
  obtain ⟨_, _, h3⟩ := dictGet_ixFrom_inv entries idx0 a j ha
  obtain ⟨_, _, h3'⟩ := dictGet_ixFrom_inv entries idx0 b j hb
  rw [← h3, ← h3']

theorem dictGet_msFrom_inv :
    ∀ (entries : List (String × String × List (String × String))) (idx0 i : Nat)
      (me : MetaEntry),
      dictGet (msFrom idx0 entries) i = some me →
      idx0 ≤ i ∧ i - idx0 < entries.length ∧ me.id = (entries.getD (i - idx0) dEnt).1 := by
  intro entries
  induction entries with
  | nil => intro idx0 i me h; cases h
  | cons e rest ih =>
    intro idx0 i me h
    by_cases he : idx0 = i
    · subst he
      have hme : me = ⟨e.1, e.2.1, e.2.2⟩ := by
        simp only [msFrom, dictGet, if_pos rfl] at h
        injection h with h'
        exact h'.symm
      subst hme
      refine ⟨le_refl _, by simp, ?_⟩
      rw [Nat.sub_self]
      simp
    · simp only [msFrom, dictGet, if_neg he] at h
      obtain ⟨h1, h2, h3⟩ := ih (idx0 + 1) i me h
      have harith : i - idx0 = (i - (idx0 + 1)) + 1 := by omega
      refine ⟨by omega, by simp; omega, ?_⟩
      rw [harith, List.getD_cons_succ]
      exact h3

theorem filterMap_length_of_isSome {α β : Type} (f : α → Option β) :
    ∀ L : List α, (∀ a ∈ L, (f a).isSome) → (L.filterMap f).length = L.length := by
  intro L
  induction L with
  | nil => intro _; rfl
  | cons a rest ih =>
    intro h
    have ha := h a (List.mem_cons_self _ _)
    cases hfa : f a with
    | none => rw [hfa] at ha; cases ha
    | some b =>
      rw [List.filterMap_cons, hfa]
      simp only [List.length_cons]
      rw [ih (fun a' ha' => h a' (List.mem_cons_of_mem _ ha'))]

theorem filterMap_nodup_of_inj {α β : Type} (f : α → Option β)
    (hinj : ∀ a b j, f a = some j → f b = some j → a = b) :
    ∀ L : List α, L.Nodup → (L.filterMap f).Nodup := by
  intro L
  induction L with
  | nil => intro _; exact List.nodup_nil
  | cons a rest ih =>
    intro hnd
    obtain ⟨hhd, htl⟩ := List.nodup_cons.mp hnd
    cases hfa : f a with
    | none => rw [List.filterMap_cons, hfa]; exact ih htl
    | some b =>
      rw [List.filterMap_cons, hfa]
      refine List.nodup_cons.mpr ⟨?_, ih htl⟩
      intro hb
      obtain ⟨a', ha', hfa'⟩ := List.mem_filterMap.mp hb
      exact hhd (hinj a a' b hfa hfa' ▸ ha')

theorem sqDist_nonneg (a b : List Int) : 0 ≤ sqDist a b := by
  unfold sqDist
  apply List.sum_nonneg
  intro x hx
  obtain ⟨p, _, rfl⟩ := List.mem_map.mp hx
  exact mul_self_nonneg _

theorem search_length_le (s : FAISSStore) (q : List Int) (k : Nat)
    (f : List (String × String)) : (search s q k f).length ≤ k := by
  unfold search
  split
  · simp
  · simp only [List.length_take]
    exact min_le_left _ _

theorem search_score_nonneg (s : FAISSStore) (q : List Int) (k : Nat)
    (f : List (String × String)) : ∀ r ∈ search s q k f, 0 ≤ r.score := by
  unfold search
  split
  · intro r hr; exact absurd hr (List.not_mem_nil r)
  · intro r hr
    have hr1 := List.mem_of_mem_take hr
    obtain ⟨p, hp, hpr⟩ := List.mem_filterMap.mp hr1
    have hp1 := List.mem_of_mem_take hp
    have hp2 : p ∈ s.vectors.enum.map (fun q' => (q'.1, sqDist q q'.2)) :=
      (stableSort_perm faissCandidateLe _).mem_iff.mp hp1
    obtain ⟨pr, _, rfl⟩ := List.mem_map.mp hp2
    cases hget : dictGet s.metadata_store (pr.1, sqDist q pr.2).1 with
    | none => rw [hget] at hpr; cases hpr
    | some entry =>
      rw [hget] at hpr
      have hpr' : (if (f.all fun kv => decide (dictGet entry.metadata kv.1 = some kv.2)) = true
          then some (VectorSearchResult.mk entry.id ((sqDist q pr.2 : Int) : ℚ)
            entry.text entry.metadata)
          else none) = some r := hpr
      by_cases hfil : (f.all fun kv => decide (dictGet entry.metadata kv.1 = some kv.2)) = true
      · rw [if_pos hfil] at hpr'
        obtain rfl : VectorSearchResult.mk entry.id ((sqDist q pr.2 : Int) : ℚ)
            entry.text entry.metadata = r := by injection hpr'
        show (0 : ℚ) ≤ ((sqDist q pr.2 : Int) : ℚ)
        exact_mod_cast sqDist_nonneg q pr.2
      · rw [if_neg hfil] at hpr'; cases hpr'

theorem rebuildStep_vectors (s : FAISSStore) (delSet : List Nat) (acc : RebuildAcc)
    (i : Nat) :
    (rebuildStep s delSet acc i).vectors
      = if i ∈ delSet then acc.vectors else acc.vectors ++ [s.vectors.getD i []] := by
  unfold rebuildStep
  split
  · rfl
  · cases dictGet s.metadata_store i <;> rfl

theorem dictUpd_mem_weak {K V : Type} [DecidableEq K] {d : List (K × V)} {k : K} {v : V} :
    ∀ p ∈ dictUpd d k v, p ∈ d ∨ p = (k, v) := by
  induction d with
  | nil =>
    intro p hp
    simp [dictUpd] at hp
    exact Or.inr hp
  | cons q rest ih =>
    obtain ⟨k', v'⟩ := q
    intro p hp
    by_cases hk : k' = k
    · subst hk
      have hu : dictUpd ((k', v') :: rest) k' v = (k', v) :: rest := by simp [dictUpd]
      rw [hu, List.mem_cons] at hp
      rcases hp with rfl | hp'
      · exact Or.inr rfl
      · exact Or.inl (List.mem_cons_of_mem _ hp')
    · simp only [dictUpd, if_neg hk, List.mem_cons] at hp
      rcases hp with rfl | hp'
      · exact Or.inl (List.mem_cons_self _ _)
      · rcases ih p hp' with h | h
        · exact Or.inl (List.mem_cons_of_mem _ h)
        · exact Or.inr h

theorem rebuildStep_ms_mem (s : FAISSStore) (delSet : List Nat) (acc : RebuildAcc)
    (i : Nat) :
    ∀ p ∈ (rebuildStep s delSet acc i).metadata_store,
      p ∈ acc.metadata_store ∨ (i ∉ delSet ∧ dictGet s.metadata_store i = some p.2) := by
  unfold rebuildStep
  split
  · intro p hp; exact Or.inl hp
  · case isFalse hni =>
    cases hget : dictGet s.metadata_store i with
    | none => intro p hp; exact Or.inl hp
    | some entry =>
      intro p hp
      rcases dictUpd_mem_weak p hp with h | h
      · exact Or.inl h
      · refine Or.inr ⟨hni, ?_⟩
        rw [h]

theorem rebuild_vectors_length :
    ∀ (L : List Nat) (s : FAISSStore) (delSet : List Nat) (acc : RebuildAcc),
      (L.foldl (rebuildStep s delSet) acc).vectors.length
        = acc.vectors.length + (L.filter (fun i => decide (i ∉ delSet))).length := by
  intro L
  induction L with
  | nil => intro s delSet acc; simp
  | cons i L' ih =>
    intro s delSet acc
    rw [List.foldl_cons, ih]
    by_cases hi : i ∈ delSet
    · have h1 : (rebuildStep s delSet acc i).vectors = acc.vectors := by
        rw [rebuildStep_vectors, if_pos hi]
      rw [h1, List.filter_cons, if_neg (by simpa using hi)]
    · have h1 : (rebuildStep s delSet acc i).vectors
          = acc.vectors ++ [s.vectors.getD i []] := by
        rw [rebuildStep_vectors, if_neg hi]
      rw [h1, List.filter_cons, if_pos (by simpa using hi)]
      simp only [List.length_append, List.length_cons, List.length_nil]
      omega

theorem rebuild_ms_mem :
    ∀ (L : List Nat) (s : FAISSStore) (delSet : List Nat) (acc : RebuildAcc),
      ∀ p ∈ (L.foldl (rebuildStep s delSet) acc).metadata_store,
        p ∈ acc.metadata_store ∨
        ∃ i, i ∉ delSet ∧ dictGet s.metadata_store i = some p.2 := by
  intro L
  induction L with
  | nil => intro s delSet acc p hp; exact Or.inl hp
  | cons i L' ih =>
    intro s delSet acc p hp
    rw [List.foldl_cons] at hp
    rcases ih s delSet (rebuildStep s delSet acc i) p hp with h | h
    · rcases rebuildStep_ms_mem s delSet acc i p h with h' | ⟨h1, h2⟩
      · exact Or.inl h'
      · exact Or.inr ⟨i, h1, h2⟩
    · exact Or.inr h

/-- C5: inserting `N` vectors with distinct ids into a fresh FAISS store
yields a vector count of `N`; every subsequent search returns at most
`top_k` results, each with a non-negative distance score; and deleting `M`
of the `N` ids succeeds, leaves `N - M` vectors, and none of the deleted
ids is ever returned by `get_chunk_ids_by_document_id`. -/
theorem faiss_round_trip
    (d N M : Nat) (vecs : List (List Int)) (texts : List String)
    (metas : List (List (String × String))) (ids delIds : List String)
    (hv : vecs.length = N) (ht : texts.length = N) (hm : metas.length = N)
    (hi : ids.length = N) (hnd : ids.Nodup)
    (hsub : ∀ id0 ∈ delIds, id0 ∈ ids) (hdnd : delIds.Nodup)
    (hM : delIds.length = M) :
    (insert_vectors (freshFAISS d) vecs texts metas (some ids)).2 = true ∧
    get_vector_count (insert_vectors (freshFAISS d) vecs texts metas (some ids)).1 = N ∧
    (∀ q k f,
      (search (insert_vectors (freshFAISS d) vecs texts metas (some ids)).1 q k f).length ≤ k ∧
      ∀ r ∈ search (insert_vectors (freshFAISS d) vecs texts metas (some ids)).1 q k f,
        0 ≤ r.score) ∧
    (delete_by_ids (insert_vectors (freshFAISS d) vecs texts metas (some ids)).1 delIds).2
      = true ∧
    get_vector_count
      (delete_by_ids (insert_vectors (freshFAISS d) vecs texts metas (some ids)).1 delIds).1
      = N - M ∧
    (∀ doc id0, id0 ∈ delIds →
      id0 ∉ get_chunk_ids_by_document_id
        (delete_by_ids (insert_vectors (freshFAISS d) vecs texts metas (some ids)).1 delIds).1
        doc) := by
  have hcond : ¬¬(vecs.length = texts.length ∧ texts.length = metas.length) :=
    not_not_intro ⟨by omega, by omega⟩
  have hmapfst : (ids.zip (texts.zip metas)).map (fun e => e.1) = ids := by
    rw [show (fun e : String × String × List (String × String) => e.1) = Prod.fst from rfl]
    refine List.map_fst_zip _ _ ?_
    rw [List.length_zip]
    omega
  have hentlen : (ids.zip (texts.zip metas)).length = N := by
    rw [List.length_zip, List.length_zip]
    omega
  set E := ids.zip (texts.zip metas) with hE
  set s1 : FAISSStore := ⟨d, vecs, msFrom 0 E, ixFrom 0 E, xiFrom 0 E, vecs.length⟩
    with hs1def
  have hclosed := insertEntries_closed E 0 [] [] []
    (by simp) (by simp) (by rw [hmapfst]; exact hnd) (by simp)
  have hins : insert_vectors (freshFAISS d) vecs texts metas (some ids) = (s1, true) := by
    unfold insert_vectors
    rw [if_neg hcond]
    show (⟨d, [] ++ vecs, (insertEntries E 0 ([], [], [])).1,
        (insertEntries E 0 ([], [], [])).2.1, (insertEntries E 0 ([], [], [])).2.2,
        0 + vecs.length⟩, true) = (s1, true)
    rw [hclosed]
    simp [hs1def]
  have hfst : (insert_vectors (freshFAISS d) vecs texts metas (some ids)).1 = s1 := by
    rw [hins]
  have hs1idx : s1.id_to_idx = ixFrom 0 E := rfl
  have hs1ms : s1.metadata_store = msFrom 0 E := rfl
  have hs1vec : s1.vectors = vecs := rfl
  set ds := delIds.filterMap (fun vid => dictGet s1.id_to_idx vid) with hds
  have hfound : ∀ id0 ∈ delIds, ∃ j, dictGet s1.id_to_idx id0 = some j := by
    intro id0 h0
    rw [hs1idx]
    exact dictGet_ixFrom_found E 0 id0 (by rw [hmapfst]; exact hsub id0 h0)
  have hdslen : ds.length = M := by
    rw [hds, filterMap_length_of_isSome _ delIds ?_, hM]
    intro a ha
    obtain ⟨j, hj⟩ := hfound a ha
    rw [hj]
    rfl
  have hdsnd : ds.Nodup := by
    rw [hds]
    refine filterMap_nodup_of_inj _ ?_ delIds hdnd
    intro a b j ha hb
    rw [hs1idx] at ha hb
    exact dictGet_ixFrom_inj ha hb
  have hdsbound : ∀ j ∈ ds, j < N := by
    intro j hj
    rw [hds] at hj
    obtain ⟨id0, _, hg⟩ := List.mem_filterMap.mp hj
    rw [hs1idx] at hg
    obtain ⟨_, h2, _⟩ := dictGet_ixFrom_inv E 0 id0 j hg
    rw [hentlen] at h2
    omega
  refine ⟨by rw [hins], by rw [hfst]; exact hv, ?_, ?_, ?_, ?_⟩
  · intro q k f
    rw [hfst]
    exact ⟨search_length_le s1 q k f, search_score_nonneg s1 q k f⟩
  · rw [hfst]
    unfold delete_by_ids
    rw [← hds]
    by_cases hemp : ds.isEmpty = true
    · rw [if_pos hemp]
    · rw [if_neg hemp]
  · rw [hfst]
    by_cases hemp : ds.isEmpty = true
    · have hM0 : M = 0 := by
        rw [← hdslen]
        exact List.isEmpty_iff_length_eq_zero.mp hemp
      have hdel_eq : delete_by_ids s1 delIds = (s1, true) := by
        unfold delete_by_ids
        rw [← hds, if_pos hemp]
      rw [hdel_eq]
      show vecs.length = N - M
      omega
    · have hdel_eq : delete_by_ids s1 delIds
          = (⟨s1.dimension,
              ((List.range s1.vectors.length).foldl (rebuildStep s1 ds)
                ⟨[], [], [], [], 0⟩).vectors,
              ((List.range s1.vectors.length).foldl (rebuildStep s1 ds)
                ⟨[], [], [], [], 0⟩).metadata_store,
              ((List.range s1.vectors.length).foldl (rebuildStep s1 ds)
                ⟨[], [], [], [], 0⟩).id_to_idx,
              ((List.range s1.vectors.length).foldl (rebuildStep s1 ds)
                ⟨[], [], [], [], 0⟩).idx_to_id,
              ((List.range s1.vectors.length).foldl (rebuildStep s1 ds)
                ⟨[], [], [], [], 0⟩).next_idx⟩, true) := by
        unfold delete_by_ids
        rw [← hds, if_neg hemp]
      rw [hdel_eq]
      show ((List.range s1.vectors.length).foldl (rebuildStep s1 ds)
        ⟨[], [], [], [], 0⟩).vectors.length = N - M
      rw [rebuild_vectors_length]
      have hkeep : (fun i => decide (i ∉ ds)) = (fun i => !(decide (i ∈ ds))) := by
        funext i
        exact decide_not
      have hperm : ((List.range N).filter (fun i => decide (i ∈ ds))).Perm ds := by
        refine (List.perm_ext_iff_of_nodup ((List.nodup_range N).filter _) hdsnd).mpr ?_
        intro a
        simp only [List.mem_filter, List.mem_range, decide_eq_true_eq]
        exact ⟨fun h => h.2, fun h => ⟨hdsbound a h, h⟩⟩
      have hsum := (List.filter_append_perm (fun i => decide (i ∈ ds))
        (List.range N)).length_eq
      rw [List.length_append, List.length_range] at hsum
      have hinlen : ((List.range N).filter (fun i => decide (i ∈ ds))).length = M := by
        rw [hperm.length_eq, hdslen]
      rw [hs1vec, hv, hkeep]
      simp only [List.length_nil]
      omega
  · intro doc id0 h0 hidmem
    rw [hfst] at hidmem
    by_cases hemp : ds.isEmpty = true
    · have hlen0 : delIds.length = 0 := by
        have h1 : ds.length = 0 := List.isEmpty_iff_length_eq_zero.mp hemp
        omega
      rw [List.length_eq_zero.mp hlen0] at h0
      exact absurd h0 (List.not_mem_nil id0)
    · have hdel_eq : delete_by_ids s1 delIds
          = (⟨s1.dimension,
              ((List.range s1.vectors.length).foldl (rebuildStep s1 ds)
                ⟨[], [], [], [], 0⟩).vectors,
              ((List.range s1.vectors.length).foldl (rebuildStep s1 ds)
                ⟨[], [], [], [], 0⟩).metadata_store,
              ((List.range s1.vectors.length).foldl (rebuildStep s1 ds)
                ⟨[], [], [], [], 0⟩).id_to_idx,
              ((List.range s1.vectors.length).foldl (rebuildStep s1 ds)
                ⟨[], [], [], [], 0⟩).idx_to_id,
              ((List.range s1.vectors.length).foldl (rebuildStep s1 ds)
                ⟨[], [], [], [], 0⟩).next_idx⟩, true) := by
        unfold delete_by_ids
        rw [← hds, if_neg hemp]
      rw [hdel_eq] at hidmem
      unfold get_chunk_ids_by_document_id at hidmem
      obtain ⟨idx, _, hg⟩ := List.mem_filterMap.mp hidmem
      cases hget2 : dictGet (((List.range s1.vectors.length).foldl (rebuildStep s1 ds)
          ⟨[], [], [], [], 0⟩).metadata_store) idx with
      | none => rw [hget2] at hg; cases hg
      | some entry =>
        rw [hget2] at hg
        have hg' : (if dictGet entry.metadata "document_id" = some doc then some entry.id
            else if (doc ++ "_chunk_").isPrefixOf entry.id then some entry.id
            else none) = some id0 := hg
        have hentid : entry.id = id0 := by
          by_cases hc1 : dictGet entry.metadata "document_id" = some doc
          · rw [if_pos hc1] at hg'
            injection hg'
          · rw [if_neg hc1] at hg'
            by_cases hc2 : (doc ++ "_chunk_").isPrefixOf entry.id
            · rw [if_pos hc2] at hg'
              injection hg'
            · rw [if_neg hc2] at hg'
              cases hg'
        have hmem2 : (idx, entry) ∈ ((List.range s1.vectors.length).foldl
            (rebuildStep s1 ds) ⟨[], [], [], [], 0⟩).metadata_store := dictGet_mem hget2
        rcases rebuild_ms_mem (List.range s1.vectors.length) s1 ds ⟨[], [], [], [], 0⟩
            (idx, entry) hmem2 with habs | ⟨i, hni, hgot⟩
        · exact absurd habs (List.not_mem_nil _)
        · rw [hs1ms] at hgot
          obtain ⟨_, hlt, hid⟩ := dictGet_msFrom_inv E 0 i entry hgot
          rw [Nat.sub_zero] at hlt hid
          have hresolve : dictGet (ixFrom 0 E) ((E.getD i dEnt).1) = some (0 + i) :=
            dictGet_ixFrom_getD E 0 i (by rw [hmapfst]; exact hnd) hlt
          have hinds : i ∈ ds := by
            rw [hds]
            refine List.mem_filterMap.mpr ⟨id0, h0, ?_⟩
            rw [hs1idx, ← hentid, hid]
            rw [hresolve]
            rw [Nat.zero_add]
          exact hni hinds

/-- Witness for C5: a concrete 3-vector store with one deleted id. -/
theorem faiss_round_trip_witness :
    (insert_vectors (freshFAISS 1) [[0], [1], [2]] ["a", "b", "c"]
        [[("document_id", "doc1")], [("document_id", "doc1")], [("document_id", "doc2")]]
        (some ["doc1_chunk_0", "doc1_chunk_1", "doc2_chunk_0"])).2 = true ∧
    get_vector_count (insert_vectors (freshFAISS 1) [[0], [1], [2]] ["a", "b", "c"]
        [[("document_id", "doc1")], [("document_id", "doc1")], [("document_id", "doc2")]]
        (some ["doc1_chunk_0", "doc1_chunk_1", "doc2_chunk_0"])).1 = 3 ∧
    (∀ q k f,
      (search (insert_vectors (freshFAISS 1) [[0], [1], [2]] ["a", "b", "c"]
        [[("document_id", "doc1")], [("document_id", "doc1")], [("document_id", "doc2")]]
        (some ["doc1_chunk_0", "doc1_chunk_1", "doc2_chunk_0"])).1 q k f).length ≤ k ∧
      ∀ r ∈ search (insert_vectors (freshFAISS 1) [[0], [1], [2]] ["a", "b", "c"]
        [[("document_id", "doc1")], [("document_id", "doc1")], [("document_id", "doc2")]]
        (some ["doc1_chunk_0", "doc1_chunk_1", "doc2_chunk_0"])).1 q k f,
        0 ≤ r.score) ∧
    (delete_by_ids (insert_vectors (freshFAISS 1) [[0], [1], [2]] ["a", "b", "c"]
        [[("document_id", "doc1")], [("document_id", "doc1")], [("document_id", "doc2")]]
        (some ["doc1_chunk_0", "doc1_chunk_1", "doc2_chunk_0"])).1 ["doc1_chunk_0"]).2
      = true ∧
    get_vector_count
      (delete_by_ids (insert_vectors (freshFAISS 1) [[0], [1], [2]] ["a", "b", "c"]
        [[("document_id", "doc1")], [("document_id", "doc1")], [("document_id", "doc2")]]
        (some ["doc1_chunk_0", "doc1_chunk_1", "doc2_chunk_0"])).1 ["doc1_chunk_0"]).1
      = 3 - 1 ∧
    (∀ doc id0, id0 ∈ ["doc1_chunk_0"] →
      id0 ∉ get_chunk_ids_by_document_id
        (delete_by_ids (insert_vectors (freshFAISS 1) [[0], [1], [2]] ["a", "b", "c"]
        [[("document_id", "doc1")], [("document_id", "doc1")], [("document_id", "doc2")]]
        (some ["doc1_chunk_0", "doc1_chunk_1", "doc2_chunk_0"])).1 ["doc1_chunk_0"]).1
        doc) :=
  faiss_round_trip 1 3 1 [[0], [1], [2]] ["a", "b", "c"]
    [[("document_id", "doc1")], [("document_id", "doc1")], [("document_id", "doc2")]]
    ["doc1_chunk_0", "doc1_chunk_1", "doc2_chunk_0"] ["doc1_chunk_0"]
    rfl rfl rfl rfl (by decide) (by decide) (by decide) rfl
